import Mathlib

/-!
A shallow embedding of the semantic core of the pikelet elaborator
(src/semantics/mod.rs) together with the concrete-to-core desugarer
(src/syntax/translation/concrete_to_core.rs).

Modelling conventions:

* Machine integers: the raw integer literal payload is the `u64` carried by
  `RawConstant::Int`; it is embedded as a `Nat` (terms produced by the parser
  always satisfy `v < 2 ^ 64`).  Rust `as`-casts to narrower integer types are
  embedded as bit-level truncation (`&&& (2 ^ w - 1)`); signed constants are
  represented by their two's-complement bit pattern, so that equality of
  constants coincides with equality in Rust.
* Floating point: `f64` literals are carried opaquely (`FloatLit`, the IEEE-754
  bit pattern); the lossy numeric casts `u64 as f32`, `u64 as f64` and
  `f64 as f32` performed by `check_const` are represented symbolically by
  constructors recording the cast and its operand, since IEEE-754 rounding is
  outside this embedding.  The checker never computes with float payloads.
* Binders: the `nameless` library used by the source implements a
  locally-nameless discipline (spec sections 3.1, 3.2): scopes store the body
  with De Bruijn indices, `Scope::bind` closes the body over the pattern name,
  and `unbind`/`unbind2` open the body with a globally fresh generated name.
  The library is embedded by `closeAt` and `openAt` traversals; annotations
  embedded in a pattern do not bind in themselves and are entered at an
  incremented scope depth by outer traversals, mirroring the library.
* The process-wide fresh-name counter is embedded by explicit state passing:
  every function that opens a scope takes the next free generation id `g` and
  returns the updated counter.
* Partiality: `normalize` can diverge on ill-typed input, so the mutually
  recursive semantic functions take a fuel parameter and return
  `Option (Except e (a × Nat))`: `none` models divergence (never an error of
  the source program), `some (.error e)` a returned error, and
  `some (.ok (a, g))` success together with the updated fresh-name counter.
* `SourceMeta` byte spans exist only for diagnostic rendering (out of scope
  per spec section 1) and are erased; error variants keep their semantic
  payloads.
-/

namespace Pikelet

/-- Modelled from the spec (section 3.1) and the interface of the missing
`syntax::core` module: a name is a user-chosen string or a generated
identifier from the global fresh-name counter. -/
inductive Name
  | user (s : String)
  | gen (id : Nat)
deriving DecidableEq, Repr

/-- A variable occurrence: free (carrying a `Name`) or bound (carrying a
name hint and a De Bruijn index), per spec section 3.2. -/
inductive Var
  | free (n : Name)
  | bound (hint : Name) (ix : Nat)
deriving DecidableEq, Repr

/-- An `f64` literal, carried opaquely as its IEEE-754 bit pattern. -/
abbrev FloatLit := Nat

/-- `syntax::core::RawConstant`: literals with unresolved numeric type, plus
the primitive type names (spec section 3.4). -/
inductive RawConstant
  | str (s : String)
  | char (c : Char)
  | int (v : Nat)
  | float (f : FloatLit)
  | stringType
  | charType
  | u8Type
  | u16Type
  | u32Type
  | u64Type
  | i8Type
  | i16Type
  | i32Type
  | i64Type
  | f32Type
  | f64Type
deriving DecidableEq, Repr

/-- Result of a lossy cast to `f32`, kept symbolically (see header). -/
inductive F32Val
  | ofU64 (v : Nat)
  | ofF64 (f : FloatLit)
deriving DecidableEq, Repr

/-- Result of a lossy cast to `f64`, kept symbolically (see header). -/
inductive F64Val
  | ofU64 (v : Nat)
  | lit (f : FloatLit)
deriving DecidableEq, Repr

/-- `syntax::core::Constant`: elaborated constants; integer payloads are the
two's-complement bit patterns of the Rust machine integers. -/
inductive Constant
  | str (s : String)
  | char (c : Char)
  | u8 (bits : Nat)
  | u16 (bits : Nat)
  | u32 (bits : Nat)
  | u64 (bits : Nat)
  | i8 (bits : Nat)
  | i16 (bits : Nat)
  | i32 (bits : Nat)
  | i64 (bits : Nat)
  | f32 (v : F32Val)
  | f64 (v : F64Val)
  | stringType
  | charType
  | u8Type
  | u16Type
  | u32Type
  | u64Type
  | i8Type
  | i16Type
  | i32Type
  | i64Type
  | f32Type
  | f64Type
deriving DecidableEq, Repr

/-- `syntax::core::RawTerm` (spans erased).  `pi x dom body` and
`lam x paramAnn body` stand for `Pi(Scope::bind((x, Embed(dom)), body))` and
`Lam(Scope::bind((x, Embed(paramAnn)), body))`: the body is stored closed
(De Bruijn indices for `x`), the embedded annotation never mentions its own
binder. -/
inductive RawTerm
  | ann (e T : RawTerm)
  | universe (l : Nat)
  | hole
  | const (c : RawConstant)
  | var (v : Var)
  | pi (x : Name) (dom : RawTerm) (body : RawTerm)
  | lam (x : Name) (paramAnn : RawTerm) (body : RawTerm)
  | app (f a : RawTerm)
deriving DecidableEq, Repr

/-- `syntax::core::Term`: the elaborated tree (no holes, constants resolved). -/
inductive Term
  | ann (e T : Term)
  | universe (l : Nat)
  | const (c : Constant)
  | var (v : Var)
  | pi (x : Name) (dom : Term) (body : Term)
  | lam (x : Name) (paramAnn : Term) (body : Term)
  | app (f a : Term)
deriving DecidableEq, Repr

/-- `syntax::core::Neutral`: a stuck computation; note that the argument of a
neutral application is an unevaluated `Term`, exactly as in
`Neutral::App(RcNeutral, RcTerm)`. -/
inductive Neutral
  | var (v : Var)
  | app (n : Neutral) (arg : Term)
deriving DecidableEq, Repr

/-- `syntax::core::Value`: weak-head normal and neutral forms. -/
inductive Value
  | universe (l : Nat)
  | const (c : Constant)
  | pi (x : Name) (dom : Value) (body : Value)
  | lam (x : Name) (paramAnn : Value) (body : Value)
  | neutral (n : Neutral)
deriving DecidableEq, Repr

/-- `Type` in the source is `type Type = Value`. -/
abbrev Type' := Value

/-! ### Scope operations (the `nameless` library)

`closeAt d x t` replaces free occurrences of `x` by a bound variable of index
`d`, entering both the annotation and the body of a scope at depth `d + 1`;
`openAt d x t` is the inverse.  `Scope::bind((x, Embed a), b)` is embedded as
the constructor applied to `x`, `a` and `closeAt 0 x b`; `unbind` freshens the
pattern name to `Name.gen g` and opens the body with it. -/

def RawTerm.closeAt (d : Nat) (x : Name) : RawTerm → RawTerm
  | .ann e T => .ann (closeAt d x e) (closeAt d x T)
  | .universe l => .universe l
  | .hole => .hole
  | .const c => .const c
  | .var (.free y) => if y = x then .var (.bound y d) else .var (.free y)
  | .var (.bound h i) => .var (.bound h i)
  | .pi y dom body => .pi y (closeAt (d + 1) x dom) (closeAt (d + 1) x body)
  | .lam y a body => .lam y (closeAt (d + 1) x a) (closeAt (d + 1) x body)
  | .app f a => .app (closeAt d x f) (closeAt d x a)

def RawTerm.openAt (d : Nat) (x : Name) : RawTerm → RawTerm
  | .ann e T => .ann (openAt d x e) (openAt d x T)
  | .universe l => .universe l
  | .hole => .hole
  | .const c => .const c
  | .var (.free y) => .var (.free y)
  | .var (.bound h i) => if i = d then .var (.free x) else .var (.bound h i)
  | .pi y dom body => .pi y (openAt (d + 1) x dom) (openAt (d + 1) x body)
  | .lam y a body => .lam y (openAt (d + 1) x a) (openAt (d + 1) x body)
  | .app f a => .app (openAt d x f) (openAt d x a)

def Term.closeAt (d : Nat) (x : Name) : Term → Term
  | .ann e T => .ann (closeAt d x e) (closeAt d x T)
  | .universe l => .universe l
  | .const c => .const c
  | .var (.free y) => if y = x then .var (.bound y d) else .var (.free y)
  | .var (.bound h i) => .var (.bound h i)
  | .pi y dom body => .pi y (closeAt (d + 1) x dom) (closeAt (d + 1) x body)
  | .lam y a body => .lam y (closeAt (d + 1) x a) (closeAt (d + 1) x body)
  | .app f a => .app (closeAt d x f) (closeAt d x a)

def Term.openAt (d : Nat) (x : Name) : Term → Term
  | .ann e T => .ann (openAt d x e) (openAt d x T)
  | .universe l => .universe l
  | .const c => .const c
  | .var (.free y) => .var (.free y)
  | .var (.bound h i) => if i = d then .var (.free x) else .var (.bound h i)
  | .pi y dom body => .pi y (openAt (d + 1) x dom) (openAt (d + 1) x body)
  | .lam y a body => .lam y (openAt (d + 1) x a) (openAt (d + 1) x body)
  | .app f a => .app (openAt d x f) (openAt d x a)

def Neutral.closeAt (d : Nat) (x : Name) : Neutral → Neutral
  | .var (.free y) => if y = x then .var (.bound y d) else .var (.free y)
  | .var (.bound h i) => .var (.bound h i)
  | .app n arg => .app (closeAt d x n) (arg.closeAt d x)

def Neutral.openAt (d : Nat) (x : Name) : Neutral → Neutral
  | .var (.free y) => .var (.free y)
  | .var (.bound h i) => if i = d then .var (.free x) else .var (.bound h i)
  | .app n arg => .app (openAt d x n) (arg.openAt d x)

def Value.closeAt (d : Nat) (x : Name) : Value → Value
  | .universe l => .universe l
  | .const c => .const c
  | .pi y dom body => .pi y (closeAt (d + 1) x dom) (closeAt (d + 1) x body)
  | .lam y a body => .lam y (closeAt (d + 1) x a) (closeAt (d + 1) x body)
  | .neutral n => .neutral (n.closeAt d x)

def Value.openAt (d : Nat) (x : Name) : Value → Value
  | .universe l => .universe l
  | .const c => .const c
  | .pi y dom body => .pi y (openAt (d + 1) x dom) (openAt (d + 1) x body)
  | .lam y a body => .lam y (openAt (d + 1) x a) (openAt (d + 1) x body)
  | .neutral n => .neutral (n.openAt d x)

/-! ### Alpha-equivalence (`BoundTerm::term_eq`)

Free variables compare by name, bound variables by index (the name hint is
ignored), and the pattern name of a scope is ignored; embedded annotations
are compared. -/

def Var.aeq : Var → Var → Bool
  | .free a, .free b => a = b
  | .bound _ i, .bound _ j => i = j
  | _, _ => false

def Term.aeq : Term → Term → Bool
  | .ann e T, .ann e' T' => e.aeq e' && T.aeq T'
  | .universe l, .universe l' => l = l'
  | .const c, .const c' => c = c'
  | .var v, .var v' => v.aeq v'
  | .pi _ dom body, .pi _ dom' body' => dom.aeq dom' && body.aeq body'
  | .lam _ a body, .lam _ a' body' => a.aeq a' && body.aeq body'
  | .app f a, .app f' a' => f.aeq f' && a.aeq a'
  | _, _ => false

def Neutral.aeq : Neutral → Neutral → Bool
  | .var v, .var v' => v.aeq v'
  | .app n arg, .app n' arg' => n.aeq n' && arg.aeq arg'
  | _, _ => false

def Value.aeq : Value → Value → Bool
  | .universe l, .universe l' => l = l'
  | .const c, .const c' => c = c'
  | .pi _ dom body, .pi _ dom' body' => dom.aeq dom' && body.aeq body'
  | .lam _ a body, .lam _ a' body' => a.aeq a' && body.aeq body'
  | .neutral n, .neutral n' => n.aeq n'
  | _, _ => false

/-! ### Context (spec section 3.7; `syntax::core` is not under `src/`) -/

/-- Modelled from the spec (section 3.7): a binder entry tags a name as
λ-bound, Π-bound, or let-bound; a let entry keeps its definition as a term. -/
inductive Binder
  | lam (name : Name) (ann : Value)
  | pi (name : Name) (ann : Value)
  | letB (name : Name) (ann : Value) (value : Term)
deriving DecidableEq, Repr

def Binder.name : Binder → Name
  | .lam n _ => n
  | .pi n _ => n
  | .letB n _ _ => n

def Binder.ann : Binder → Value
  | .lam _ a => a
  | .pi _ a => a
  | .letB _ a _ => a

/-- Modelled from the spec (section 3.7): an ordered persistent list of
binder entries, most recent first. -/
abbrev Context := List Binder

/-- Modelled from the spec (section 3.7): lookup returns the first matching
entry scanning from the most recent binder. -/
def Context.lookupBinder (ctx : Context) (x : Name) : Option Binder :=
  ctx.find? (fun b => b.name = x)

def Context.extendLam (ctx : Context) (n : Name) (ann : Value) : Context :=
  .lam n ann :: ctx

def Context.extendPi (ctx : Context) (n : Name) (ann : Value) : Context :=
  .pi n ann :: ctx

def Context.extendLet (ctx : Context) (n : Name) (ann : Value) (v : Term) : Context :=
  .letB n ann v :: ctx

/-! ### Value into term embedding

Modelled from the spec (section 4.1): `Term::from(&Value)` of the missing
`syntax::core` module; neutrals embed as variables and applications,
universes and constants as themselves, scopes transfer verbatim. -/

def Term.fromNeutral : Neutral → Term
  | .var v => .var v
  | .app n arg => .app (fromNeutral n) arg

def Term.fromValue : Value → Term
  | .universe l => .universe l
  | .const c => .const c
  | .pi x dom body => .pi x (fromValue dom) (fromValue body)
  | .lam x a body => .lam x (fromValue a) (fromValue body)
  | .neutral n => Term.fromNeutral n

/-! ### Errors

`semantics/errors.rs` is not under `src/`; the variants and their semantic
payloads are modelled from the spec (section 7), with byte spans erased.
`FunctionParamNeedsAnnotation` is embedded as `funParamNeedsAnn`. -/

/-- Modelled from the spec (section 7): bugs that should never arise on
well-typed input. -/
inductive InternalError
  | undefinedName (n : Name)
  | unsubstitutedDebruijnIndex (hint : Name) (ix : Nat)
  | argumentAppliedToNonFunction
deriving DecidableEq, Repr

/-- Modelled from the spec (section 7): user-facing type errors; internal
errors are convertible into type errors for uniform surfacing. -/
inductive TypeError
  | internal (e : InternalError)
  | undefinedName (n : Name)
  | mismatch (found expected : Value)
  | unexpectedFunction (expected : Value)
  | expectedUniverse (found : Value)
  | argAppliedToNonFunction (found : Value)
  | funParamNeedsAnn (name : Name)
  | unableToElaborateHole (expected : Option Value)
  | ambiguousIntLiteral
  | ambiguousFloatLiteral
deriving DecidableEq, Repr

/-! ### Result plumbing

`none` models divergence (fuel exhaustion), `some (.error e)` a returned
error, `some (.ok (a, g))` success with the updated fresh-name counter. -/

def nbind (x : Option (Except ε (α × Nat))) (f : α → Nat → Option (Except ε (β × Nat))) :
    Option (Except ε (β × Nat)) :=
  match x with
  | none => none
  | some (.error e) => some (.error e)
  | some (.ok (a, g)) => f a g

/-- The `?`-conversion `From<InternalError> for TypeError`. -/
def liftNorm : Option (Except InternalError (α × Nat)) → Option (Except TypeError (α × Nat))
  | none => none
  | some (.error e) => some (.error (.internal e))
  | some (.ok p) => some (.ok p)

/-! ### Constants -/

/-- A Rust `as`-cast from `u64` to a `w`-bit integer type: truncation to the
low `w` bits. -/
def u64AsBits (w : Nat) (v : Nat) : Nat := v &&& (2 ^ w - 1)

/-- `check_const` (semantics/mod.rs, lines 269-286): the compatible
literal/type coercions. -/
def checkConst : RawConstant → Constant → Option Constant
  | .int v, .u8Type => some (.u8 (u64AsBits 8 v))
  | .int v, .u16Type => some (.u16 (u64AsBits 16 v))
  | .int v, .u32Type => some (.u32 (u64AsBits 32 v))
  | .int v, .u64Type => some (.u64 v)
  | .int v, .i8Type => some (.i8 (u64AsBits 8 v))
  | .int v, .i16Type => some (.i16 (u64AsBits 16 v))
  | .int v, .i32Type => some (.i32 (u64AsBits 32 v))
  | .int v, .i64Type => some (.i64 (u64AsBits 64 v))
  | .int v, .f32Type => some (.f32 (.ofU64 v))
  | .int v, .f64Type => some (.f64 (.ofU64 v))
  | .float f, .f32Type => some (.f32 (.ofF64 f))
  | .float f, .f64Type => some (.f64 (.lit f))
  | _, _ => none

/-- `infer_const` (semantics/mod.rs, lines 394-417). -/
def inferConst : RawConstant → Except TypeError (Term × Value)
  | .str s => .ok (.const (.str s), .const .stringType)
  | .char c => .ok (.const (.char c), .const .charType)
  | .int _ => .error .ambiguousIntLiteral
  | .float _ => .error .ambiguousFloatLiteral
  | .stringType => .ok (.const .stringType, .universe 0)
  | .charType => .ok (.const .charType, .universe 0)
  | .u8Type => .ok (.const .u8Type, .universe 0)
  | .u16Type => .ok (.const .u16Type, .universe 0)
  | .u32Type => .ok (.const .u32Type, .universe 0)
  | .u64Type => .ok (.const .u64Type, .universe 0)
  | .i8Type => .ok (.const .i8Type, .universe 0)
  | .i16Type => .ok (.const .i16Type, .universe 0)
  | .i32Type => .ok (.const .i32Type, .universe 0)
  | .i64Type => .ok (.const .i64Type, .universe 0)
  | .f32Type => .ok (.const .f32Type, .universe 0)
  | .f64Type => .ok (.const .f64Type, .universe 0)

/-! ### The normalizer and the bidirectional checker

Faithful embeddings of `normalize`, `check`, `infer` and `infer_universe`
(semantics/mod.rs).  Fuel is consumed on every call; the fresh-name counter
is consumed exactly where the source calls `unbind`/`unbind2`. -/

mutual

/-- `normalize` (semantics/mod.rs, lines 137-249). -/
def normalize : Nat → Context → Term → Nat → Option (Except InternalError (Value × Nat))
  | 0, _, _, _ => none
  | fuel + 1, ctx, t, g =>
    match t with
    | .ann e _T => normalize fuel ctx e g
    | .universe l => some (.ok (.universe l, g))
    | .const c => some (.ok (.const c, g))
    | .var (.free x) =>
      match ctx.lookupBinder x with
      | some (.lam _ _) => some (.ok (.neutral (.var (.free x)), g))
      | some (.pi _ _) => some (.ok (.neutral (.var (.free x)), g))
      | some (.letB _ _ v) => normalize fuel ctx v g
      | none => some (.error (.undefinedName x))
    | .var (.bound h i) => some (.error (.unsubstitutedDebruijnIndex h i))
    | .pi _x dom body =>
      let f := Name.gen g
      nbind (normalize fuel ctx dom (g + 1)) fun vDom g1 =>
      nbind (normalize fuel (ctx.extendPi f vDom) (body.openAt 0 f) g1) fun vBody g2 =>
      some (.ok (.pi f vDom (vBody.closeAt 0 f), g2))
    | .lam _x a body =>
      let f := Name.gen g
      nbind (normalize fuel ctx a (g + 1)) fun vAnn g1 =>
      nbind (normalize fuel (ctx.extendLam f vAnn) (body.openAt 0 f) g1) fun vBody g2 =>
      some (.ok (.lam f vAnn (vBody.closeAt 0 f), g2))
    | .app fn arg =>
      nbind (normalize fuel ctx fn g) fun vFn g1 =>
      match vFn with
      | .lam _x a body =>
        let f := Name.gen g1
        normalize fuel (ctx.extendLet f a arg) (Term.fromValue (body.openAt 0 f)) (g1 + 1)
      | .neutral n => some (.ok (.neutral (.app n arg), g1))
      | _ => some (.error .argumentAppliedToNonFunction)

termination_by structural fuel => fuel

/-- `check` (semantics/mod.rs, lines 259-356). -/
def check : Nat → Context → RawTerm → Value → Nat → Option (Except TypeError (Term × Nat))
  | 0, _, _, _, _ => none
  | fuel + 1, ctx, t, expected, g =>
    match t, expected with
    | .lam _x lamAnn lamBody, .pi _y piAnn piBody =>
      -- unbind2 opens both scopes against the same fresh name
      let f := Name.gen g
      match lamAnn with
      | .hole =>
        nbind (check fuel (ctx.extendPi f piAnn) (lamBody.openAt 0 f) (piBody.openAt 0 f) (g + 1))
          fun b g1 => some (.ok (.lam f (Term.fromValue piAnn) (b.closeAt 0 f), g1))
      | _ => checkInferFallback fuel ctx t expected (g + 1)
    | .const c, .const cTy =>
      match checkConst c cTy with
      | some c1 => some (.ok (.const c1, g))
      | none => checkInferFallback fuel ctx t expected g
    | .lam _ _ _, _ => some (.error (.unexpectedFunction expected))
    | .hole, _ => some (.error (.unableToElaborateHole (some expected)))
    | _, _ => checkInferFallback fuel ctx t expected g

termination_by structural fuel => fuel

/-- The CHECK/INFER fallback rule of `check` (semantics/mod.rs, lines
332-355): infer a type and compare it with the expected one for
alpha-equivalence. -/
def checkInferFallback : Nat → Context → RawTerm → Value → Nat →
    Option (Except TypeError (Term × Nat))
  | 0, _, _, _, _ => none
  | fuel + 1, ctx, t, expected, g =>
    nbind (infer fuel ctx t g) fun p g1 =>
      if Value.aeq p.2 expected then some (.ok (p.1, g1))
      else some (.error (.mismatch p.2 expected))

termination_by structural fuel => fuel

/-- `infer` (semantics/mod.rs, lines 366-563). -/
def infer : Nat → Context → RawTerm → Nat → Option (Except TypeError ((Term × Value) × Nat))
  | 0, _, _, _ => none
  | fuel + 1, ctx, t, g =>
    match t with
    | .ann e T =>
      nbind (inferUniverse fuel ctx T g) fun p g1 =>
      nbind (liftNorm (normalize fuel ctx p.1 g1)) fun simpT g2 =>
      nbind (check fuel ctx e simpT g2) fun elabE g3 =>
      some (.ok ((.ann elabE p.1, simpT), g3))
    | .universe l => some (.ok ((.universe l, .universe (l + 1)), g))
    | .hole => some (.error (.unableToElaborateHole none))
    | .const c =>
      match inferConst c with
      | .ok p => some (.ok (p, g))
      | .error e => some (.error e)
    | .var (.free x) =>
      match ctx.lookupBinder x with
      | some b => some (.ok ((.var (.free x), b.ann), g))
      | none => some (.error (.undefinedName x))
    | .var (.bound h i) => some (.error (.internal (.unsubstitutedDebruijnIndex h i)))
    | .pi _x dom body =>
      let f := Name.gen g
      nbind (inferUniverse fuel ctx dom (g + 1)) fun pDom g1 =>
      nbind (liftNorm (normalize fuel ctx pDom.1 g1)) fun simpDom g2 =>
      nbind (inferUniverse fuel (ctx.extendPi f simpDom) (body.openAt 0 f) g2) fun pBody g3 =>
      some (.ok ((.pi f pDom.1 (Term.closeAt 0 f pBody.1), .universe (max pDom.2 pBody.2)), g3))
    | .lam _x a body =>
      let f := Name.gen g
      match a with
      | .hole => some (.error (.funParamNeedsAnn f))
      | _ =>
        nbind (inferUniverse fuel ctx a (g + 1)) fun pAnn g1 =>
        nbind (liftNorm (normalize fuel ctx pAnn.1 g1)) fun piAnn g2 =>
        nbind (infer fuel (ctx.extendLam f piAnn) (body.openAt 0 f) g2) fun pBody g3 =>
        some (.ok ((.lam f pAnn.1 (Term.closeAt 0 f pBody.1),
                    .pi f piAnn (Value.closeAt 0 f pBody.2)), g3))
    | .app fn arg =>
      nbind (infer fuel ctx fn g) fun pFn g1 =>
      match pFn.2 with
      | .pi _y piAnn piBody =>
        let f := Name.gen g1
        nbind (check fuel ctx arg piAnn (g1 + 1)) fun elabArg g2 =>
        nbind (liftNorm (normalize fuel (ctx.extendLet f piAnn elabArg)
                 (Term.fromValue (piBody.openAt 0 f)) g2)) fun vBody g3 =>
        some (.ok ((.app pFn.1 elabArg, vBody), g3))
      | fTy => some (.error (.argAppliedToNonFunction fTy))

termination_by structural fuel => fuel

/-- `infer_universe` (semantics/mod.rs, lines 377-389): infer, then demand a
universe. -/
def inferUniverse : Nat → Context → RawTerm → Nat →
    Option (Except TypeError ((Term × Nat) × Nat))
  | 0, _, _, _ => none
  | fuel + 1, ctx, t, g =>
    nbind (infer fuel ctx t g) fun p g1 =>
    match p.2 with
    | .universe l => some (.ok ((p.1, l), g1))
    | ty => some (.error (.expectedUniverse ty))
termination_by structural fuel => fuel

end

/-! ### Modules -/

/-- `syntax::core::RawDefinition`. -/
structure RawDefinition where
  name : String
  term : RawTerm
  ann : RawTerm
deriving DecidableEq, Repr

/-- `syntax::core::RawModule`. -/
structure RawModule where
  name : String
  definitions : List RawDefinition
deriving DecidableEq, Repr

/-- `syntax::core::Definition`: in `check_module` the stored annotation is
the normalized value. -/
structure Definition where
  name : String
  term : Term
  ann : Value
deriving DecidableEq, Repr

/-- `syntax::core::Module`. -/
structure Module where
  name : String
  definitions : List Definition
deriving DecidableEq, Repr

/-- The loop of `check_module` (semantics/mod.rs, lines 97-127), threading
the context and the fresh-name counter through the definitions in order. -/
def checkDefs (fuel : Nat) : Context → List RawDefinition → Nat →
    Option (Except TypeError (List Definition × Nat))
  | _, [], g => some (.ok ([], g))
  | ctx, d :: rest, g =>
    let step : Option (Except TypeError ((Term × Value) × Nat)) :=
      match d.ann with
      | .hole => infer fuel ctx d.term g
      | _ =>
        nbind (infer fuel ctx d.ann g) fun pAnn g1 =>
        nbind (liftNorm (normalize fuel ctx pAnn.1 g1)) fun annV g2 =>
        nbind (check fuel ctx d.term annV g2) fun elabTerm g3 =>
        some (.ok ((elabTerm, annV), g3))
    nbind step fun p g1 =>
    nbind (checkDefs fuel (ctx.extendLet (Name.user d.name) p.2 p.1) rest g1) fun ds g2 =>
    some (.ok (⟨d.name, p.1, p.2⟩ :: ds, g2))

/-- `check_module` (semantics/mod.rs, lines 97-127). -/
def checkModule (fuel : Nat) (m : RawModule) (g : Nat) :
    Option (Except TypeError (Module × Nat)) :=
  nbind (checkDefs fuel [] m.definitions g) fun ds g1 =>
  some (.ok (⟨m.name, ds⟩, g1))

/-! ### The concrete-to-core desugarer

`syntax/translation/concrete_to_core.rs` is under `src/`; the concrete
syntax tree it consumes (`syntax::concrete`) is not, so `CTerm`/`CDecl`
carry exactly the variants and payloads that the desugarer matches, with
spans erased.  `unimplemented!` panics (imports, error recovery) are
embedded as `none`; the desugarer is total on the remaining input, so its
fuel parameter is a technicality of the embedding. -/

/-- `concrete::Term`, as matched by concrete_to_core.rs (lines 158-206).
A lambda parameter group is a list of names with an optional shared
annotation. -/
inductive CTerm
  | parens (t : CTerm)
  | cann (e T : CTerm)
  | cuniverse (l : Option Nat)
  | chole
  | cstr (s : String)
  | cchar (c : Char)
  | cint (v : Nat)
  | cfloat (f : FloatLit)
  | cvar (x : String)
  | cpi (names : List String) (dom : CTerm) (body : CTerm)
  | clam (params : List (List String × Option CTerm)) (body : CTerm)
  | carrow (dom body : CTerm)
  | capp (f a : CTerm)
  | cerror

/-- `concrete::Declaration`, as matched by concrete_to_core.rs
(lines 92-145). -/
inductive CDecl
  | cimport
  | claim (name : String) (ann : CTerm)
  | cdefn (name : String) (params : List (List String × Option CTerm)) (body : CTerm)
  | cerror

/-- The payload of `concrete::Module::Valid`. -/
structure CModule where
  name : String
  declarations : List CDecl

/-- The fold of `pi_to_core` (concrete_to_core.rs, lines 23-42): nested
single-binder Pi types; the desugared annotation is shared (cloned) between
the binders. -/
def piFold (names : List String) (dom : RawTerm) (body : RawTerm) : RawTerm :=
  names.foldr (fun nm acc => .pi (.user nm) dom (RawTerm.closeAt 0 (.user nm) acc)) body

mutual

/-- `ToCore for concrete::Term` (concrete_to_core.rs, lines 158-206). -/
def ctermToCore : Nat → CTerm → Nat → Option (RawTerm × Nat)
  | 0, _, _ => none
  | fuel + 1, t, g =>
    match t with
    | .parens t1 => ctermToCore fuel t1 g
    | .cann e T =>
      match ctermToCore fuel e g with
      | none => none
      | some (e1, g1) =>
        match ctermToCore fuel T g1 with
        | none => none
        | some (T1, g2) => some (.ann e1 T1, g2)
    | .cuniverse l => some (.universe (l.getD 0), g)
    | .chole => some (.hole, g)
    | .cstr s => some (.const (.str s), g)
    | .cchar c => some (.const (.char c), g)
    | .cint v => some (.const (.int v), g)
    | .cfloat f => some (.const (.float f), g)
    | .cvar x => some (.var (.free (.user x)), g)
    | .cpi names dom body =>
      match ctermToCore fuel dom g with
      | none => none
      | some (dom1, g1) =>
        match ctermToCore fuel body g1 with
        | none => none
        | some (body1, g2) => some (piFold names dom1 body1, g2)
    | .clam params body =>
      match ctermToCore fuel body g with
      | none => none
      | some (body1, g1) => lamToCore fuel params body1 g1
    | .carrow dom body =>
      -- a fresh generated name, then the annotation, then the body
      let f := Name.gen g
      match ctermToCore fuel dom (g + 1) with
      | none => none
      | some (dom1, g1) =>
        match ctermToCore fuel body g1 with
        | none => none
        | some (body1, g2) => some (.pi f dom1 (RawTerm.closeAt 0 f body1), g2)
    | .capp fn a =>
      match ctermToCore fuel fn g with
      | none => none
      | some (fn1, g1) =>
        match ctermToCore fuel a g1 with
        | none => none
        | some (a1, g2) => some (.app fn1 a1, g2)
    | .cerror => none

/-- The parameter fold of `lam_to_core` (concrete_to_core.rs, lines 55-76):
parameter groups are wrapped from the innermost (last) group outwards. -/
def lamToCore : Nat → List (List String × Option CTerm) → RawTerm → Nat →
    Option (RawTerm × Nat)
  | 0, _, _, _ => none
  | _fuel + 1, [], acc, g => some (acc, g)
  | fuel + 1, p :: rest, acc, g =>
    match lamToCore fuel rest acc g with
    | none => none
    | some (acc1, g1) => lamGroup fuel p.1 p.2 acc1 g1

/-- One parameter group of `lam_to_core`: names are wrapped from the last
name outwards, and the group annotation is desugared once per name (a
missing annotation becomes a hole). -/
def lamGroup : Nat → List String → Option CTerm → RawTerm → Nat →
    Option (RawTerm × Nat)
  | 0, _, _, _, _ => none
  | _fuel + 1, [], _, acc, g => some (acc, g)
  | fuel + 1, nm :: restNames, annOpt, acc, g =>
    match lamGroup fuel restNames annOpt acc g with
    | none => none
    | some (acc1, g1) =>
      match annOpt with
      | none => some (.lam (.user nm) .hole (RawTerm.closeAt 0 (.user nm) acc1), g1)
      | some a =>
        match ctermToCore fuel a g1 with
        | none => none
        | some (a1, g2) => some (.lam (.user nm) a1 (RawTerm.closeAt 0 (.user nm) acc1), g2)

end

/-- `lam_to_core(params, body)` applied to a definition body: the body is
desugared first, then the parameters are wrapped around it. -/
def defnToCore (fuel : Nat) (params : List (List String × Option CTerm)) (body : CTerm)
    (g : Nat) : Option (RawTerm × Nat) :=
  match ctermToCore fuel body g with
  | none => none
  | some (b, g1) => lamToCore fuel params b g1

/-- The declaration loop of `ToCore for concrete::Module`
(concrete_to_core.rs, lines 78-156): `pending` is `prev_claim`, `defs` the
accumulated raw definitions. -/
def processDecls (fuel : Nat) : List CDecl → Option (String × RawTerm) →
    List RawDefinition → Nat → Option (List RawDefinition × Nat)
  | [], _pending, defs, g => some (defs, g)
  | .cimport :: _, _, _, _ => none
  | .cerror :: _, _, _, _ => none
  | .claim nm ann :: rest, pending, defs, g =>
    match pending with
    | some pc => processDecls fuel rest none (defs ++ [⟨pc.1, .hole, pc.2⟩]) g
    | none =>
      match ctermToCore fuel ann g with
      | none => none
      | some (a1, g1) => processDecls fuel rest (some (nm, a1)) defs g1
  | .cdefn nm params body :: rest, pending, defs, g =>
    match pending with
    | none =>
      match defnToCore fuel params body g with
      | none => none
      | some (t, g1) => processDecls fuel rest none (defs ++ [⟨nm, t, .hole⟩]) g1
    | some pc =>
      if pc.1 = nm then
        match defnToCore fuel params body g with
        | none => none
        | some (t, g1) => processDecls fuel rest none (defs ++ [⟨nm, t, pc.2⟩]) g1
      else
        match defnToCore fuel params body g with
        | none => none
        | some (t, g1) =>
          processDecls fuel rest none (defs ++ [⟨pc.1, .hole, pc.2⟩, ⟨nm, t, .hole⟩]) g1

/-- `ToCore for concrete::Module` on a valid module (concrete_to_core.rs,
lines 78-156). -/
def moduleToCore (fuel : Nat) (m : CModule) (g : Nat) : Option (RawModule × Nat) :=
  match processDecls fuel m.declarations none [] g with
  | none => none
  | some (defs, g1) => some (⟨m.name, defs⟩, g1)

/-! ### Machinery for the idempotence of `normalize`

`goodV` characterizes the values `normalize` can return: the head of every
neutral is either a free variable that is lambda- or Pi-bound in the context
or a De Bruijn index that a pending scope opening will replace by a fresh
(lambda- or Pi-bound) name.  The valid-index set `V` is extended with a
fresh slot when entering a scope body, and with a vacant slot when entering
an embedded annotation, because `Scope::bind` closes only the body. -/

/-- Whether a context lookup found a lambda or Pi binder. -/
def isLamPiBinder : Option Binder → Bool
  | some (.lam _ _) => true
  | some (.pi _ _) => true
  | _ => false

/-- Extend a valid-index set under a scope body: index 0 is the new binder. -/
def extValid (V : Nat → Bool) : Nat → Bool :=
  fun i => match i with
  | 0 => true
  | j + 1 => V j

/-- Extend a valid-index set under an embedded annotation: index 0 would be
the annotation's own binder, which cannot occur in it. -/
def extVacant (V : Nat → Bool) : Nat → Bool :=
  fun i => match i with
  | 0 => false
  | j + 1 => V j

/-- Insert a valid slot at index `d`, shifting the indices above it. -/
def insertAt (d : Nat) (V : Nat → Bool) : Nat → Bool :=
  fun i => if i < d then V i else if i = d then true else V (i - 1)

/-- Heads of a neutral are free lambda- or Pi-bound variables or valid
indices; the argument terms are never evaluated and are unconstrained. -/
def Neutral.goodN (ctx : Context) (V : Nat → Bool) : Neutral → Bool
  | .var (.free x) => isLamPiBinder (ctx.lookupBinder x)
  | .var (.bound _ i) => V i
  | .app n _ => goodN ctx V n

/-- Every neutral inside the value is good; scope fields extend the
valid-index set. -/
def Value.goodV (ctx : Context) (V : Nat → Bool) : Value → Bool
  | .universe _ => true
  | .const _ => true
  | .pi _ a b => goodV ctx (extVacant V) a && goodV ctx (extValid V) b
  | .lam _ a b => goodV ctx (extVacant V) a && goodV ctx (extValid V) b
  | .neutral n => n.goodN ctx V

/-- Size of a neutral, ignoring the unevaluated argument terms. -/
def Neutral.nsize : Neutral → Nat
  | .var _ => 1
  | .app n _ => n.nsize + 1

/-- Size of a value, ignoring the argument terms of neutrals; invariant
under `openAt` and `closeAt`. -/
def Value.vsize : Value → Nat
  | .universe _ => 1
  | .const _ => 1
  | .pi _ a b => a.vsize + b.vsize + 1
  | .lam _ a b => a.vsize + b.vsize + 1
  | .neutral n => n.nsize + 1

/-- All generated identifiers among a name are below `g`. -/
def Name.genLtB (g : Nat) : Name → Bool
  | .user _ => true
  | .gen i => i < g

/-- All free generated names of a term are below `g` (bound-variable hints
and pattern names are never consulted by the scope operations). -/
def Term.genLtB (g : Nat) : Term → Bool
  | .ann e T => e.genLtB g && T.genLtB g
  | .universe _ => true
  | .const _ => true
  | .var (.free x) => x.genLtB g
  | .var (.bound _ _) => true
  | .pi _ a b => a.genLtB g && b.genLtB g
  | .lam _ a b => a.genLtB g && b.genLtB g
  | .app f a => f.genLtB g && a.genLtB g

/-- All free generated names of a neutral, including those inside its
argument terms, are below `g`. -/
def Neutral.genLtB (g : Nat) : Neutral → Bool
  | .var (.free x) => x.genLtB g
  | .var (.bound _ _) => true
  | .app n arg => n.genLtB g && arg.genLtB g

/-- All free generated names of a value are below `g`. -/
def Value.genLtB (g : Nat) : Value → Bool
  | .universe _ => true
  | .const _ => true
  | .pi _ a b => a.genLtB g && b.genLtB g
  | .lam _ a b => a.genLtB g && b.genLtB g
  | .neutral n => n.genLtB g

/-- The empty valid-index set. -/
def noIdx : Nat → Bool := fun _ => false

/-! ### Helper predicates and concrete inputs used by the theorems -/

/-- Whether a value is a Pi type. -/
def Value.isPi : Value → Bool
  | .pi _ _ _ => true
  | _ => false

/-- Whether a raw constant is a literal (as opposed to a primitive type name). -/
def RawConstant.isLiteral : RawConstant → Bool
  | .str _ => true
  | .char _ => true
  | .int _ => true
  | .float _ => true
  | _ => false

/-- Whether an elaborated constant is a primitive type name. -/
def Constant.isTypeConst : Constant → Bool
  | .stringType => true
  | .charType => true
  | .u8Type => true
  | .u16Type => true
  | .u32Type => true
  | .u64Type => true
  | .i8Type => true
  | .i16Type => true
  | .i32Type => true
  | .i64Type => true
  | .f32Type => true
  | .f64Type => true
  | _ => false

/-- A raw module with two definitions named `x`, the second shadowing the
first, and a third definition referring to `x`. -/
def dupModule : RawModule :=
  ⟨"m", [⟨"x", .universe 0, .hole⟩, ⟨"x", .universe 1, .hole⟩,
         ⟨"y", .var (.free (.user "x")), .hole⟩]⟩

/-- The elaboration of `dupModule`: the third definition's type is the type
of the second `x`. -/
def dupModuleElab : Module :=
  ⟨"m", [⟨"x", .universe 0, .universe 1⟩, ⟨"x", .universe 1, .universe 2⟩,
         ⟨"y", .var (.free (.user "x")), .universe 2⟩]⟩

/-! ### The claims -/

/-- C4: `infer` on `Type l` synthesizes the type `Type (l+1)`; and for a Pi
type whose domain elaborates at universe level `i` and whose body, opened
against the fresh name, elaborates at level `j` under the Pi-extended
context, `infer` synthesizes the type `Type (max i j)`. -/
theorem c4_universe_stratification :
    (∀ fuel ctx l g,
      infer (fuel + 1) ctx (.universe l) g =
        some (.ok ((.universe l, .universe (l + 1)), g))) ∧
    (∀ fuel ctx x dom body g elabDom i g1 simpDom g2 elabBody j g3,
      inferUniverse fuel ctx dom (g + 1) = some (.ok ((elabDom, i), g1)) →
      normalize fuel ctx elabDom g1 = some (.ok (simpDom, g2)) →
      inferUniverse fuel (ctx.extendPi (Name.gen g) simpDom)
          (body.openAt 0 (Name.gen g)) g2 = some (.ok ((elabBody, j), g3)) →
      infer (fuel + 1) ctx (.pi x dom body) g =
        some (.ok ((.pi (Name.gen g) elabDom (Term.closeAt 0 (Name.gen g) elabBody),
          .universe (max i j)), g3))) := by
  constructor
  · intro fuel ctx l g
    simp [infer]
  · intro fuel ctx x dom body g elabDom i g1 simpDom g2 elabBody j g3 h1 h2 h3
    simp [infer, nbind, liftNorm, h1, h2, h3]

/-- C4 witness: the stratification equations at concrete inputs. -/
theorem c4_witness :
    inferUniverse 2 [] (.universe 0) 1 = some (.ok ((.universe 0, 1), 1)) ∧
    normalize 2 [] (.universe 0) 1 = some (.ok (.universe 0, 1)) ∧
    inferUniverse 2 (Context.extendPi [] (Name.gen 0) (.universe 0))
        (RawTerm.openAt 0 (Name.gen 0) (.universe 2)) 1 = some (.ok ((.universe 2, 3), 1)) ∧
    infer 3 [] (.universe 5) 7 = some (.ok ((.universe 5, .universe 6), 7)) ∧
    infer 3 [] (.pi (.user "a") (.universe 0) (.universe 2)) 0 =
      some (.ok ((.pi (Name.gen 0) (.universe 0) (Term.closeAt 0 (Name.gen 0) (.universe 2)),
        .universe (max 1 3)), 1)) := by
  refine ⟨by rfl, by rfl, by rfl, c4_universe_stratification.1 2 [] 5 7, ?_⟩
  exact c4_universe_stratification.2 2 [] (.user "a") (.universe 0) (.universe 2) 0
    (.universe 0) 1 1 (.universe 0) 1 (.universe 2) 3 1 rfl rfl rfl


/-- C5: `normalize` on a free variable returns the neutral `var` when the
name is lambda- or Pi-bound, normalizes the right-hand-side term when the
name is let-bound, and fails with `InternalError::UndefinedName` when the
name is absent; a bound (De Bruijn) variable occurrence fails with
`InternalError::UnsubstitutedDebruijnIndex`. -/
theorem c5_normalize_var :
    (∀ (fuel : Nat) (ctx : Context) (x : Name) (g nm ann : _), Context.lookupBinder ctx x = some (.lam nm ann) →
      Pikelet.normalize (fuel + 1) ctx (.var (.free x)) g =
        some (.ok (.neutral (.var (.free x)), g))) ∧
    (∀ (fuel : Nat) (ctx : Context) (x : Name) (g nm ann : _), Context.lookupBinder ctx x = some (.pi nm ann) →
      Pikelet.normalize (fuel + 1) ctx (.var (.free x)) g =
        some (.ok (.neutral (.var (.free x)), g))) ∧
    (∀ (fuel : Nat) (ctx : Context) (x : Name) (g nm ann v : _), Context.lookupBinder ctx x = some (.letB nm ann v) →
      Pikelet.normalize (fuel + 1) ctx (.var (.free x)) g = Pikelet.normalize fuel ctx v g) ∧
    (∀ (fuel : Nat) (ctx : Context) (x : Name) (g : Nat), Context.lookupBinder ctx x = none →
      Pikelet.normalize (fuel + 1) ctx (.var (.free x)) g = some (.error (.undefinedName x))) ∧
    (∀ fuel ctx h i g,
      Pikelet.normalize (fuel + 1) ctx (.var (.bound h i)) g =
        some (.error (.unsubstitutedDebruijnIndex h i))) := by
  refine ⟨?_, ?_, ?_, ?_, ?_⟩
  · intro fuel ctx x g nm ann h1; simp [normalize, h1]
  · intro fuel ctx x g nm ann h1; simp [normalize, h1]
  · intro fuel ctx x g nm ann v h1; simp [normalize, h1]
  · intro fuel ctx x g h1; simp [normalize, h1]
  · intro fuel ctx h i g; simp [normalize]

/-- C5 witness: the variable rules at concrete contexts. -/
theorem c5_witness :
    Context.lookupBinder [Binder.lam (.user "x") (.universe 0)] (.user "x") =
      some (.lam (.user "x") (.universe 0)) ∧
    Pikelet.normalize 4 [Binder.lam (.user "x") (.universe 0)] (.var (.free (.user "x"))) 0 =
      some (.ok (.neutral (.var (.free (.user "x"))), 0)) ∧
    Context.lookupBinder [Binder.letB (.user "y") (.universe 1) (.universe 0)] (.user "y") =
      some (.letB (.user "y") (.universe 1) (.universe 0)) ∧
    Pikelet.normalize 4 [Binder.letB (.user "y") (.universe 1) (.universe 0)]
        (.var (.free (.user "y"))) 0 =
      Pikelet.normalize 3 [Binder.letB (.user "y") (.universe 1) (.universe 0)] (.universe 0) 0 ∧
    Context.lookupBinder [] (.user "z") = none ∧
    Pikelet.normalize 4 [] (.var (.free (.user "z"))) 0 =
      some (.error (.undefinedName (.user "z"))) ∧
    Pikelet.normalize 4 [] (.var (.bound (.user "w") 3)) 0 =
      some (.error (.unsubstitutedDebruijnIndex (.user "w") 3)) := by
  refine ⟨rfl, c5_normalize_var.1 3 _ _ 0 _ _ rfl, rfl, ?_, rfl, ?_, ?_⟩
  · exact c5_normalize_var.2.2.1 3 _ _ 0 _ _ _ rfl
  · exact c5_normalize_var.2.2.2.1 3 _ _ 0 rfl
  · exact c5_normalize_var.2.2.2.2 3 [] (.user "w") 3 0

/-- C6: checking a raw lambda against an expected value that is not a Pi
type fails with `TypeError::UnexpectedFunction` carrying the expected
type. -/
theorem c6_check_lam_non_pi :
    ∀ fuel ctx x a b expected g, Value.isPi expected = false →
      check (fuel + 1) ctx (.lam x a b) expected g =
        some (.error (.unexpectedFunction expected)) := by
  intro fuel ctx x a b expected g hpi
  cases expected <;> simp_all [check, Value.isPi]

/-- C6 witness: the identity lambda checked against `Type`. -/
theorem c6_witness :
    Value.isPi (.universe 0) = false ∧
    check 3 [] (.lam (.user "a") .hole (.var (.bound (.user "a") 0))) (.universe 0) 0 =
      some (.error (.unexpectedFunction (.universe 0))) :=
  ⟨rfl, c6_check_lam_non_pi 2 [] (.user "a") .hole (.var (.bound (.user "a") 0))
    (.universe 0) 0 rfl⟩

/-- Rust truncation to the low bits is reduction modulo a power of two. -/
theorem u64AsBits_eq_mod (w v : Nat) : u64AsBits w v = v % 2 ^ w :=
  Nat.and_pow_two_sub_one_eq_mod v w

/-- C7: a generic integer literal checked against an integer target type of
width `n` elaborates to the literal reduced modulo `2 ^ n` (wrapping, never
an overflow error; for `U64` the `u64` payload is itself its value modulo
`2 ^ 64`); integer and float literals checked against `F32`/`F64` are
coerced by the lossy numeric cast; a successful coercion makes `check`
return the elaborated constant. -/
theorem c7_literal_coercions :
    (∀ v, checkConst (.int v) .u8Type = some (.u8 (v % 2 ^ 8)) ∧
          checkConst (.int v) .u16Type = some (.u16 (v % 2 ^ 16)) ∧
          checkConst (.int v) .u32Type = some (.u32 (v % 2 ^ 32)) ∧
          checkConst (.int v) .i8Type = some (.i8 (v % 2 ^ 8)) ∧
          checkConst (.int v) .i16Type = some (.i16 (v % 2 ^ 16)) ∧
          checkConst (.int v) .i32Type = some (.i32 (v % 2 ^ 32)) ∧
          checkConst (.int v) .i64Type = some (.i64 (v % 2 ^ 64)) ∧
          checkConst (.int v) .f32Type = some (.f32 (.ofU64 v)) ∧
          checkConst (.int v) .f64Type = some (.f64 (.ofU64 v))) ∧
    (∀ v, v < 2 ^ 64 → checkConst (.int v) .u64Type = some (.u64 (v % 2 ^ 64))) ∧
    (∀ f, checkConst (.float f) .f32Type = some (.f32 (.ofF64 f)) ∧
          checkConst (.float f) .f64Type = some (.f64 (.lit f))) ∧
    (∀ fuel ctx g c cTy c1, checkConst c cTy = some c1 →
      check (fuel + 1) ctx (.const c) (.const cTy) g = some (.ok (.const c1, g))) := by
  refine ⟨?_, ?_, ?_, ?_⟩
  · intro v
    simp [checkConst, u64AsBits_eq_mod]
  · intro v hv
    simp only [checkConst, Option.some.injEq, Constant.u64.injEq]
    omega
  · intro f; exact ⟨rfl, rfl⟩
  · intro fuel ctx g c cTy c1 h1
    simp [check, h1]

/-- C7 witness: the literal `300` wraps to `44` at type `U8`. -/
theorem c7_witness :
    checkConst (.int 300) .u8Type = some (.u8 44) ∧
    (300 : Nat) < 2 ^ 64 ∧
    checkConst (.int 300) .u64Type = some (.u64 (300 % 2 ^ 64)) ∧
    check 3 [] (.const (.int 300)) (.const .u8Type) 7 =
      some (.ok (.const (.u8 44), 7)) := by
  refine ⟨rfl, by decide, c7_literal_coercions.2.1 300 (by decide), ?_⟩
  exact c7_literal_coercions.2.2.2 2 [] 7 (.int 300) .u8Type (.u8 44) rfl

/-- C2 counterexample: the integer literal `1` checked against the
primitive type constant `Char` is not a compatible coercion, and the check
fails with `TypeError::AmbiguousIntLiteral` after falling through to
inference - not with `TypeError::Mismatch` as the claim states. -/
theorem c2_counterexample :
    check 3 [] (.const (.int 1)) (.const .charType) 0 =
      some (.error .ambiguousIntLiteral) := rfl

/-- C2 amended: a raw literal checked against a primitive-type constant
with no compatible coercion falls through to inference; integer and float
literals then fail with `TypeError::AmbiguousIntLiteral` and
`TypeError::AmbiguousFloatLiteral`, while string and char literals succeed
when the expected type is exactly `String` or `Char` and fail with
`TypeError::Mismatch` otherwise. -/
theorem c2_amended :
    ∀ (fuel : Nat) (ctx : Context) (g : Nat) (c : RawConstant) (cTy : Constant),
      RawConstant.isLiteral c = true → Constant.isTypeConst cTy = true →
      checkConst c cTy = none →
      check (fuel + 3) ctx (.const c) (.const cTy) g =
        match c with
        | .int _ => some (.error .ambiguousIntLiteral)
        | .float _ => some (.error .ambiguousFloatLiteral)
        | .str s =>
          if cTy = .stringType
          then some (.ok (.const (.str s), g))
          else some (.error (.mismatch (.const .stringType) (.const cTy)))
        | .char ch =>
          if cTy = .charType
          then some (.ok (.const (.char ch), g))
          else some (.error (.mismatch (.const .charType) (.const cTy)))
        | _ => none := by
  intro fuel ctx g c cTy hlit hty hcc
  cases c <;> simp_all [RawConstant.isLiteral]
  case str s =>
    by_cases hs : cTy = Constant.stringType
    · simp_all [check, checkInferFallback, infer, inferConst, nbind, Value.aeq]
    · simp_all [check, checkInferFallback, infer, inferConst, nbind, Value.aeq, Ne.symm hs]
  case char ch =>
    by_cases hs : cTy = Constant.charType
    · simp_all [check, checkInferFallback, infer, inferConst, nbind, Value.aeq]
    · simp_all [check, checkInferFallback, infer, inferConst, nbind, Value.aeq, Ne.symm hs]
  case int v =>
    simp [check, checkInferFallback, infer, inferConst, nbind, hcc]
  case float f =>
    simp [check, checkInferFallback, infer, inferConst, nbind, hcc]

/-- C2 witness: a string literal against `U8` is a mismatch. -/
theorem c2_witness :
    RawConstant.isLiteral (.str "a") = true ∧
    Constant.isTypeConst .u8Type = true ∧
    checkConst (.str "a") .u8Type = none ∧
    check 5 [] (.const (.str "a")) (.const .u8Type) 0 =
      some (.error (.mismatch (.const .stringType) (.const .u8Type))) :=
  ⟨rfl, rfl, rfl, c2_amended 2 [] 0 (.str "a") .u8Type rfl rfl rfl⟩

/-- C1 counterexample: a definition whose declared annotation is the
string literal `"a"` (not a hole, and not a universe) is not rejected with
`TypeError::ExpectedUniverse`: `check_module` elaborates the annotation
with plain `infer`, normalizes it, and the body check then fails with
`TypeError::Mismatch`. -/
theorem c1_counterexample :
    checkModule 3 ⟨"m", [⟨"x", .const (.str "a"), .const (.str "a")⟩]⟩ 0 =
      some (.error (.mismatch (.const .stringType) (.const (.str "a")))) := rfl

/-- C1 amended: in `check_module`, a raw definition whose declared
annotation is not a hole has its annotation elaborated with plain `infer`
(no universe demanded of its type), the elaborated annotation normalized to
a value, and the definition body checked against that value; the context is
then extended with a let binding of the definition name. -/
theorem c1_amended :
    ∀ (fuel : Nat) (ctx : Context) (nm : String) (tm annR : RawTerm)
      (rest : List RawDefinition) (g : Nat) (elabAnn : Term) (ty : Value) (g1 : Nat)
      (annV : Value) (g2 : Nat) (elabTm : Term) (g3 : Nat) (ds : List Definition) (g4 : Nat),
      annR ≠ .hole →
      infer fuel ctx annR g = some (.ok ((elabAnn, ty), g1)) →
      Pikelet.normalize fuel ctx elabAnn g1 = some (.ok (annV, g2)) →
      check fuel ctx tm annV g2 = some (.ok (elabTm, g3)) →
      checkDefs fuel (ctx.extendLet (.user nm) annV elabTm) rest g3 = some (.ok (ds, g4)) →
      checkDefs fuel ctx (⟨nm, tm, annR⟩ :: rest) g =
        some (.ok (⟨nm, elabTm, annV⟩ :: ds, g4)) := by
  intro fuel ctx nm tm annR rest g elabAnn ty g1 annV g2 elabTm g3 ds g4 hh h1 h2 h3 h4
  cases annR <;>
    simp_all [checkDefs, nbind, liftNorm]

/-- C1 witness: a definition annotated with `Type 1`. -/
theorem c1_witness :
    (RawTerm.universe 0 : RawTerm) ≠ .hole ∧
    infer 3 [] (.universe 0) 0 = some (.ok ((.universe 0, .universe 1), 0)) ∧
    Pikelet.normalize 3 [] (.universe 0) 0 = some (.ok (.universe 0, 0)) ∧
    check 3 [] (.universe 0) (.universe 1) 0 = some (.ok (.universe 0, 0)) ∧
    checkDefs 3 (Context.extendLet [] (.user "x") (.universe 1) (.universe 0)) [] 0 =
      some (.ok ([], 0)) ∧
    checkDefs 3 [] [⟨"x", .universe 0, .universe 1⟩] 0 =
      some (.ok ([⟨"x", .universe 0, .universe 1⟩], 0)) := by
  refine ⟨by simp, rfl, rfl, rfl, rfl, ?_⟩
  exact c1_amended 3 [] "x" (.universe 0) (.universe 1) [] 0 (.universe 1) (.universe 2) 0
    (.universe 1) 0 (.universe 0) 0 [] 0 (by simp) rfl rfl rfl rfl

/-- C3: checking a raw lambda whose parameter annotation is a hole against
a Pi-type value opens the lambda scope and the Pi scope jointly against the
same fresh name, extends the context with a Pi binding of the Pi domain,
checks the lambda body against the opened Pi codomain, and returns a core
lambda whose parameter annotation is the Pi domain embedded as a term and
whose body is the elaborated body, rebound over the fresh name. -/
theorem c3_check_lam_hole :
    ∀ (fuel : Nat) (ctx : Context) (x : Name) (lamBody : RawTerm) (y : Name)
      (piAnn piBody : Value) (g : Nat) (b : Term) (g1 : Nat),
      check fuel (ctx.extendPi (Name.gen g) piAnn)
          (lamBody.openAt 0 (Name.gen g)) (piBody.openAt 0 (Name.gen g)) (g + 1) =
        some (.ok (b, g1)) →
      check (fuel + 1) ctx (.lam x .hole lamBody) (.pi y piAnn piBody) g =
        some (.ok (.lam (Name.gen g) (Term.fromValue piAnn) (b.closeAt 0 (Name.gen g)), g1)) := by
  intro fuel ctx x lamBody y piAnn piBody g b g1 h1
  simp [check, nbind, h1]

/-- C3 witness: the unannotated identity lambda checked against a Pi. -/
theorem c3_witness :
    check 3 (Context.extendPi [] (Name.gen 0) (.universe 0))
        (RawTerm.openAt 0 (Name.gen 0) (.var (.bound (.user "a") 0)))
        (Value.openAt 0 (Name.gen 0) (.universe 0)) 1 =
      some (.ok (.var (.free (.gen 0)), 1)) ∧
    check 4 [] (.lam (.user "a") .hole (.var (.bound (.user "a") 0)))
        (.pi (.user "b") (.universe 0) (.universe 0)) 0 =
      some (.ok (.lam (.gen 0) (Term.fromValue (.universe 0))
        (Term.closeAt 0 (.gen 0) (.var (.free (.gen 0)))), 1)) := by
  refine ⟨rfl, ?_⟩
  exact c3_check_lam_hole 3 [] (.user "a") (.var (.bound (.user "a") 0)) (.user "b")
    (.universe 0) (.universe 0) 0 (.var (.free (.gen 0))) 1 rfl

/-- C10: `check_module` reports no duplicate-name error for a module with
two definitions of the same name: both are checked in order, the context is
extended with a let binding for each, and since lookup returns the most
recent entry the shared name in a later definition refers to the most
recently checked definition. -/
theorem c10_shadowing :
    (∀ (ctx : Context) (n : Name) (a : Value) (t : Term) (a' : Value) (t' : Term),
      Context.lookupBinder (Context.extendLet (Context.extendLet ctx n a t) n a' t') n =
        some (.letB n a' t')) ∧
    checkModule 2 dupModule 0 = some (.ok (dupModuleElab, 0)) := by
  constructor
  · intro ctx n a t a' t'
    simp [Context.lookupBinder, Context.extendLet, Binder.name]
  · rfl

/-- C9 counterexample: a concrete module consisting of a single type claim
for `x` with no definition desugars to an empty definition list: the claim
is silently discarded, contradicting the claim that no claim is silently
discarded. -/
theorem c9_counterexample :
    moduleToCore 1 ⟨"m", [.claim "x" (.cuniverse none)]⟩ 0 = some (⟨"m", []⟩, 0) := rfl

/-- C9 amended: whenever the desugarer consumes a pending claim - that is,
when the next claim or definition is processed while the claim is pending -
the output contains a raw definition for the claim name: paired with the
desugared body and the claim annotation when the consumer is a definition of
the same name, and a stub whose term is a hole otherwise (once emitted,
entries are preserved to the end of the module); however a claim still
pending at the end of the module, and a claim arriving while another claim
is pending, are silently discarded. -/
theorem c9_amended :
    (∀ (fuel : Nat) (rest : List CDecl) (cn : String) (cann : RawTerm)
       (defs : List RawDefinition) (g : Nat) (nm : String) (ann : CTerm),
      processDecls fuel (.claim nm ann :: rest) (some (cn, cann)) defs g =
        processDecls fuel rest none (defs ++ [⟨cn, .hole, cann⟩]) g) ∧
    (∀ (fuel : Nat) (rest : List CDecl) (cn : String) (cann : RawTerm)
       (defs : List RawDefinition) (g : Nat) (params : List (List String × Option CTerm))
       (body : CTerm) (t : RawTerm) (g1 : Nat),
      defnToCore fuel params body g = some (t, g1) →
      processDecls fuel (.cdefn cn params body :: rest) (some (cn, cann)) defs g =
        processDecls fuel rest none (defs ++ [⟨cn, t, cann⟩]) g1) ∧
    (∀ (fuel : Nat) (rest : List CDecl) (cn : String) (cann : RawTerm)
       (defs : List RawDefinition) (g : Nat) (nm : String)
       (params : List (List String × Option CTerm)) (body : CTerm) (t : RawTerm) (g1 : Nat),
      cn ≠ nm →
      defnToCore fuel params body g = some (t, g1) →
      processDecls fuel (.cdefn nm params body :: rest) (some (cn, cann)) defs g =
        processDecls fuel rest none (defs ++ [⟨cn, .hole, cann⟩, ⟨nm, t, .hole⟩]) g1) ∧
    (∀ (fuel : Nat) (decls : List CDecl) (pending : Option (String × RawTerm))
       (defs : List RawDefinition) (g : Nat) (out : List RawDefinition) (g1 : Nat),
      processDecls fuel decls pending defs g = some (out, g1) →
      ∃ more, out = defs ++ more) := by
  refine ⟨?_, ?_, ?_, ?_⟩
  · intro fuel rest cn cann defs g nm ann
    simp [processDecls]
  · intro fuel rest cn cann defs g params body t g1 h1
    simp [processDecls, h1]
  · intro fuel rest cn cann defs g nm params body t g1 hne h1
    simp [processDecls, h1, hne]
  · intro fuel decls
    induction decls with
    | nil =>
      intro pending defs g out g1 h1
      simp [processDecls] at h1
      exact ⟨[], by simp [h1.1]⟩
    | cons d rest ih =>
      intro pending defs g out g1 h1
      cases d with
      | cimport => simp [processDecls] at h1
      | cerror => simp [processDecls] at h1
      | claim nm ann =>
        cases pending with
        | some pc =>
          simp only [processDecls] at h1
          obtain ⟨more, hm⟩ := ih none (defs ++ [⟨pc.1, .hole, pc.2⟩]) g out g1 h1
          exact ⟨⟨pc.1, .hole, pc.2⟩ :: more, by simp [hm]⟩
        | none =>
          simp only [processDecls] at h1
          cases heq : ctermToCore fuel ann g with
          | none => rw [heq] at h1; simp at h1
          | some p =>
            rw [heq] at h1
            exact ih (some (nm, p.1)) defs p.2 out g1 h1
      | cdefn nm params body =>
        cases pending with
        | none =>
          simp only [processDecls] at h1
          cases heq : defnToCore fuel params body g with
          | none => rw [heq] at h1; simp at h1
          | some p =>
            rw [heq] at h1
            obtain ⟨more, hm⟩ := ih none (defs ++ [⟨nm, p.1, .hole⟩]) p.2 out g1 h1
            exact ⟨⟨nm, p.1, .hole⟩ :: more, by simp [hm]⟩
        | some pc =>
          simp only [processDecls] at h1
          by_cases hnm : pc.1 = nm
          · rw [if_pos hnm] at h1
            cases heq : defnToCore fuel params body g with
            | none => rw [heq] at h1; simp at h1
            | some p =>
              rw [heq] at h1
              obtain ⟨more, hm⟩ := ih none (defs ++ [⟨nm, p.1, pc.2⟩]) p.2 out g1 h1
              exact ⟨⟨nm, p.1, pc.2⟩ :: more, by simp [hm]⟩
          · rw [if_neg hnm] at h1
            cases heq : defnToCore fuel params body g with
            | none => rw [heq] at h1; simp at h1
            | some p =>
              rw [heq] at h1
              obtain ⟨more, hm⟩ :=
                ih none (defs ++ [⟨pc.1, .hole, pc.2⟩, ⟨nm, p.1, .hole⟩]) p.2 out g1 h1
              exact ⟨⟨pc.1, .hole, pc.2⟩ :: ⟨nm, p.1, .hole⟩ :: more, by simp [hm]⟩

/-- C9 witness: a pending claim consumed by a same-named definition, and by
a definition of a different name. -/
theorem c9_witness :
    defnToCore 1 [] (.cuniverse none) 0 = some (.universe 0, 0) ∧
    processDecls 1 [.cdefn "x" [] (.cuniverse none)] (some ("x", .universe 0)) [] 0 =
      processDecls 1 [] none ([] ++ [⟨"x", .universe 0, .universe 0⟩]) 0 ∧
    "x" ≠ "y" ∧
    processDecls 1 [.cdefn "y" [] (.cuniverse none)] (some ("x", .universe 0)) [] 0 =
      processDecls 1 [] none
        ([] ++ [⟨"x", .hole, .universe 0⟩, ⟨"y", .universe 0, .hole⟩]) 0 := by
  refine ⟨rfl, ?_, by decide, ?_⟩
  · exact c9_amended.2.1 1 [] "x" (.universe 0) [] 0 [] (.cuniverse none) (.universe 0) 0 rfl
  · exact c9_amended.2.2.1 1 [] "x" (.universe 0) [] 0 "y" [] (.cuniverse none)
      (.universe 0) 0 (by decide) rfl

/-! ### Idempotence of the normalizer (C8) -/

theorem extVacant_noIdx : extVacant noIdx = noIdx := by
  funext i; cases i <;> rfl

theorem insertAt_zero_noIdx : insertAt 0 noIdx = extValid noIdx := by
  funext i; cases i <;> simp [insertAt, extValid, noIdx]

theorem extVacant_insertAt (d : Nat) (V : Nat → Bool) :
    extVacant (insertAt d V) = insertAt (d + 1) (extVacant V) := by
  funext i
  match i with
  | 0 => simp [extVacant, insertAt]
  | j + 1 =>
    simp only [extVacant, insertAt]
    rcases Nat.lt_trichotomy j d with h | h | h
    · rw [if_pos h, if_pos (by omega)]
    · subst h
      rw [if_neg (by omega), if_pos rfl, if_neg (by omega), if_pos (by omega)]
    · rw [if_neg (by omega), if_neg (by omega), if_neg (by omega), if_neg (by omega)]
      have : j + 1 - 1 = (j - 1) + 1 := by omega
      simp [this, extVacant]

theorem extValid_insertAt (d : Nat) (V : Nat → Bool) :
    extValid (insertAt d V) = insertAt (d + 1) (extValid V) := by
  funext i
  match i with
  | 0 => simp [extValid, insertAt]
  | j + 1 =>
    simp only [extValid, insertAt]
    rcases Nat.lt_trichotomy j d with h | h | h
    · rw [if_pos h, if_pos (by omega)]
    · subst h
      rw [if_neg (by omega), if_pos rfl, if_neg (by omega), if_pos (by omega)]
    · rw [if_neg (by omega), if_neg (by omega), if_neg (by omega), if_neg (by omega)]
      have : j + 1 - 1 = (j - 1) + 1 := by omega
      simp [this, extValid]

theorem lookupBinder_cons_ne (B : Binder) (ctx : Context) (y : Name) (h : B.name ≠ y) :
    Context.lookupBinder (B :: ctx) y = Context.lookupBinder ctx y := by
  simp [Context.lookupBinder, List.find?, h]

theorem lookupBinder_cons_self (B : Binder) (ctx : Context) :
    Context.lookupBinder (B :: ctx) B.name = some B := by
  simp [Context.lookupBinder, List.find?]

/-- Sizes are invariant under opening. -/
theorem nsize_openAt (d : Nat) (f : Name) (n : Neutral) :
    (n.openAt d f).nsize = n.nsize := by
  induction n generalizing d with
  | var v =>
    match v with
    | .free y => rfl
    | .bound h i => simp only [Neutral.openAt]; split <;> rfl
  | app n arg ih => simp [Neutral.openAt, Neutral.nsize, ih]

theorem vsize_openAt (d : Nat) (f : Name) (v : Value) :
    (v.openAt d f).vsize = v.vsize := by
  induction v generalizing d with
  | «universe» l => rfl
  | const c => rfl
  | pi x a b iha ihb => simp [Value.openAt, Value.vsize, iha, ihb]
  | lam x a b iha ihb => simp [Value.openAt, Value.vsize, iha, ihb]
  | neutral n => simp [Value.openAt, Value.vsize, nsize_openAt]

/-- Monotonicity of the generated-name bounds. -/
theorem genLtB_mono_name {g g' : Nat} (h : g ≤ g') {x : Name} :
    x.genLtB g = true → x.genLtB g' = true := by
  cases x with
  | user s => intro; rfl
  | gen i => simp [Name.genLtB]; omega

theorem genLtB_mono_term {g g' : Nat} (h : g ≤ g') {t : Term} :
    t.genLtB g = true → t.genLtB g' = true := by
  induction t with
  | ann e T ihe ihT => simp [Term.genLtB]; exact fun h1 h2 => ⟨ihe h1, ihT h2⟩
  | «universe» l => intro; rfl
  | const c => intro; rfl
  | var v =>
    match v with
    | .free y => exact genLtB_mono_name h
    | .bound hh i => intro; rfl
  | pi x a b iha ihb => simp [Term.genLtB]; exact fun h1 h2 => ⟨iha h1, ihb h2⟩
  | lam x a b iha ihb => simp [Term.genLtB]; exact fun h1 h2 => ⟨iha h1, ihb h2⟩
  | app f a ihf iha => simp [Term.genLtB]; exact fun h1 h2 => ⟨ihf h1, iha h2⟩

theorem genLtB_mono_neutral {g g' : Nat} (h : g ≤ g') {n : Neutral} :
    n.genLtB g = true → n.genLtB g' = true := by
  induction n with
  | var v =>
    match v with
    | .free y => exact genLtB_mono_name h
    | .bound hh i => intro; rfl
  | app n arg ih =>
    simp [Neutral.genLtB]
    exact fun h1 h2 => ⟨ih h1, genLtB_mono_term h h2⟩

theorem genLtB_mono_value {g g' : Nat} (h : g ≤ g') {v : Value} :
    v.genLtB g = true → v.genLtB g' = true := by
  induction v with
  | «universe» l => intro; rfl
  | const c => intro; rfl
  | pi x a b iha ihb => simp [Value.genLtB]; exact fun h1 h2 => ⟨iha h1, ihb h2⟩
  | lam x a b iha ihb => simp [Value.genLtB]; exact fun h1 h2 => ⟨iha h1, ihb h2⟩
  | neutral n => simp [Value.genLtB]; exact genLtB_mono_neutral h

/-- Opening with the fresh name `gen g` keeps all free generated names
below `g + 1`. -/
theorem genLtB_openAt_term (g d : Nat) (t : Term) (h : t.genLtB g = true) :
    (t.openAt d (Name.gen g)).genLtB (g + 1) = true := by
  induction t generalizing d with
  | ann e T ihe ihT =>
    simp [Term.genLtB, Term.openAt] at h ⊢
    exact ⟨ihe _ h.1, ihT _ h.2⟩
  | «universe» l => rfl
  | const c => rfl
  | var v =>
    match v with
    | .free y =>
      simp [Term.openAt]
      exact genLtB_mono_name (Nat.le_succ g) h
    | .bound hh i =>
      simp only [Term.openAt]
      split
      · simp [Term.genLtB, Name.genLtB]
      · rfl
  | pi x a b iha ihb =>
    simp [Term.genLtB, Term.openAt] at h ⊢
    exact ⟨iha _ h.1, ihb _ h.2⟩
  | lam x a b iha ihb =>
    simp [Term.genLtB, Term.openAt] at h ⊢
    exact ⟨iha _ h.1, ihb _ h.2⟩
  | app f a ihf iha =>
    simp [Term.genLtB, Term.openAt] at h ⊢
    exact ⟨ihf _ h.1, iha _ h.2⟩

theorem genLtB_openAt_neutral (g d : Nat) (n : Neutral) (h : n.genLtB g = true) :
    (n.openAt d (Name.gen g)).genLtB (g + 1) = true := by
  induction n generalizing d with
  | var v =>
    match v with
    | .free y =>
      simp [Neutral.openAt]
      exact genLtB_mono_name (Nat.le_succ g) h
    | .bound hh i =>
      simp only [Neutral.openAt]
      split
      · simp [Neutral.genLtB, Name.genLtB]
      · rfl
  | app n arg ih =>
    simp [Neutral.genLtB, Neutral.openAt] at h ⊢
    exact ⟨ih _ h.1, genLtB_openAt_term g d arg h.2⟩

theorem genLtB_openAt_value (g d : Nat) (v : Value) (h : v.genLtB g = true) :
    (v.openAt d (Name.gen g)).genLtB (g + 1) = true := by
  induction v generalizing d with
  | «universe» l => rfl
  | const c => rfl
  | pi x a b iha ihb =>
    simp [Value.genLtB, Value.openAt] at h ⊢
    exact ⟨iha _ h.1, ihb _ h.2⟩
  | lam x a b iha ihb =>
    simp [Value.genLtB, Value.openAt] at h ⊢
    exact ⟨iha _ h.1, ihb _ h.2⟩
  | neutral n => exact genLtB_openAt_neutral g d n h

/-- Closing never introduces free generated names. -/
theorem genLtB_closeAt_term (g d : Nat) (f : Name) (t : Term) (h : t.genLtB g = true) :
    (t.closeAt d f).genLtB g = true := by
  induction t generalizing d with
  | ann e T ihe ihT =>
    simp [Term.genLtB, Term.closeAt] at h ⊢
    exact ⟨ihe _ h.1, ihT _ h.2⟩
  | «universe» l => rfl
  | const c => rfl
  | var v =>
    match v with
    | .free y =>
      simp only [Term.closeAt]
      split
      · rfl
      · exact h
    | .bound hh i => rfl
  | pi x a b iha ihb =>
    simp [Term.genLtB, Term.closeAt] at h ⊢
    exact ⟨iha _ h.1, ihb _ h.2⟩
  | lam x a b iha ihb =>
    simp [Term.genLtB, Term.closeAt] at h ⊢
    exact ⟨iha _ h.1, ihb _ h.2⟩
  | app f1 a ihf iha =>
    simp [Term.genLtB, Term.closeAt] at h ⊢
    exact ⟨ihf _ h.1, iha _ h.2⟩

theorem genLtB_closeAt_neutral (g d : Nat) (f : Name) (n : Neutral) (h : n.genLtB g = true) :
    (n.closeAt d f).genLtB g = true := by
  induction n generalizing d with
  | var v =>
    match v with
    | .free y =>
      simp only [Neutral.closeAt]
      split
      · rfl
      · exact h
    | .bound hh i => rfl
  | app n arg ih =>
    simp [Neutral.genLtB, Neutral.closeAt] at h ⊢
    exact ⟨ih _ h.1, genLtB_closeAt_term g d f arg h.2⟩

theorem genLtB_closeAt_value (g d : Nat) (f : Name) (v : Value) (h : v.genLtB g = true) :
    (v.closeAt d f).genLtB g = true := by
  induction v generalizing d with
  | «universe» l => rfl
  | const c => rfl
  | pi x a b iha ihb =>
    simp [Value.genLtB, Value.closeAt] at h ⊢
    exact ⟨iha _ h.1, ihb _ h.2⟩
  | lam x a b iha ihb =>
    simp [Value.genLtB, Value.closeAt] at h ⊢
    exact ⟨iha _ h.1, ihb _ h.2⟩
  | neutral n => exact genLtB_closeAt_neutral g d f n h

/-- The value-to-term embedding preserves the generated-name bound. -/
theorem genLtB_fromNeutral (g : Nat) (n : Neutral) (h : n.genLtB g = true) :
    (Term.fromNeutral n).genLtB g = true := by
  induction n with
  | var v =>
    match v with
    | .free y => exact h
    | .bound hh i => rfl
  | app n arg ih =>
    simp [Neutral.genLtB] at h
    simp [Term.fromNeutral, Term.genLtB]
    exact ⟨ih h.1, h.2⟩

theorem genLtB_fromValue (g : Nat) (v : Value) (h : v.genLtB g = true) :
    (Term.fromValue v).genLtB g = true := by
  induction v with
  | «universe» l => rfl
  | const c => rfl
  | pi x a b iha ihb =>
    simp [Value.genLtB] at h
    simp [Term.fromValue, Term.genLtB]
    exact ⟨iha h.1, ihb h.2⟩
  | lam x a b iha ihb =>
    simp [Value.genLtB] at h
    simp [Term.fromValue, Term.genLtB]
    exact ⟨iha h.1, ihb h.2⟩
  | neutral n => exact genLtB_fromNeutral g n h

/-- The embedding commutes with opening. -/
theorem fromNeutral_openAt (d : Nat) (f : Name) (n : Neutral) :
    Term.openAt d f (Term.fromNeutral n) = Term.fromNeutral (n.openAt d f) := by
  induction n generalizing d with
  | var v =>
    match v with
    | .free y => rfl
    | .bound hh i =>
      simp only [Term.fromNeutral, Term.openAt, Neutral.openAt]
      split <;> rfl
  | app n arg ih => simp [Term.fromNeutral, Term.openAt, Neutral.openAt, ih]

theorem fromValue_openAt (d : Nat) (f : Name) (v : Value) :
    Term.openAt d f (Term.fromValue v) = Term.fromValue (v.openAt d f) := by
  induction v generalizing d with
  | «universe» l => rfl
  | const c => rfl
  | pi x a b iha ihb => simp [Term.fromValue, Term.openAt, Value.openAt, iha, ihb]
  | lam x a b iha ihb => simp [Term.fromValue, Term.openAt, Value.openAt, iha, ihb]
  | neutral n => exact fromNeutral_openAt d f n

/-- Alpha-equivalence is reflexive. -/
theorem aeq_refl_var (v : Var) : v.aeq v = true := by
  cases v <;> simp [Var.aeq]

theorem aeq_refl_term (t : Term) : t.aeq t = true := by
  induction t with
  | ann e T ihe ihT => simp [Term.aeq, ihe, ihT]
  | «universe» l => simp [Term.aeq]
  | const c => simp [Term.aeq]
  | var v => simp [Term.aeq, aeq_refl_var]
  | pi x a b iha ihb => simp [Term.aeq, iha, ihb]
  | lam x a b iha ihb => simp [Term.aeq, iha, ihb]
  | app f a ihf iha => simp [Term.aeq, ihf, iha]

theorem aeq_refl_neutral (n : Neutral) : n.aeq n = true := by
  induction n with
  | var v => simp [Neutral.aeq, aeq_refl_var]
  | app n arg ih => simp [Neutral.aeq, ih, aeq_refl_term]

theorem aeq_refl_value (v : Value) : v.aeq v = true := by
  induction v with
  | «universe» l => simp [Value.aeq]
  | const c => simp [Value.aeq]
  | pi x a b iha ihb => simp [Value.aeq, iha, ihb]
  | lam x a b iha ihb => simp [Value.aeq, iha, ihb]
  | neutral n => simp [Value.aeq, aeq_refl_neutral]


/-- If the opening of `t` with the fresh name `gen gf` is alpha-equivalent
to `s`, then `t` is alpha-equivalent to the closing of `s` over that name:
the key fact relating the first run's closed scope bodies to the second
run's re-normalized openings. -/
theorem aeq_open_close_term {gf : Nat} :
    ∀ (t s : Term) (d : Nat), t.genLtB gf = true →
      (t.openAt d (Name.gen gf)).aeq s = true →
      t.aeq (s.closeAt d (Name.gen gf)) = true := by
  intro t
  induction t with
  | ann e T ihe ihT =>
    intro s d hg h
    cases s <;> simp [Term.openAt, Term.aeq] at h
    simp [Term.genLtB] at hg
    simp [Term.closeAt, Term.aeq]
    exact ⟨ihe _ _ hg.1 h.1, ihT _ _ hg.2 h.2⟩
  | «universe» l =>
    intro s d hg h
    cases s <;> simp [Term.openAt, Term.aeq] at h
    simp [Term.closeAt, Term.aeq, h]
  | const c =>
    intro s d hg h
    cases s <;> simp [Term.openAt, Term.aeq] at h
    simp [Term.closeAt, Term.aeq, h]
  | var v =>
    intro s d hg h
    match v with
    | .free y =>
      simp only [Term.openAt] at h
      cases s <;> simp [Term.aeq] at h
      case var v' =>
        cases v' <;> simp [Var.aeq] at h
        subst h
        have hy : (y = Name.gen gf) = False := by
          simp only [eq_iff_iff, iff_false]
          intro he
          subst he
          simp [Term.genLtB, Name.genLtB] at hg
        simp [Term.closeAt, hy, Term.aeq, Var.aeq]
    | .bound hh i =>
      simp only [Term.openAt] at h
      by_cases hi : i = d
      · rw [if_pos hi] at h
        cases s <;> simp [Term.aeq] at h
        rename_i v'
        cases v' <;> simp [Var.aeq] at h
        subst h
        simp [Term.closeAt, Term.aeq, Var.aeq, hi]
      · rw [if_neg hi] at h
        cases s <;> simp [Term.aeq] at h
        rename_i v'
        cases v' <;> simp [Var.aeq] at h
        simp [Term.closeAt, Term.aeq, Var.aeq, h]
  | pi x a b iha ihb =>
    intro s d hg h
    cases s <;> simp [Term.openAt, Term.aeq] at h
    simp [Term.genLtB] at hg
    simp [Term.closeAt, Term.aeq]
    exact ⟨iha _ _ hg.1 h.1, ihb _ _ hg.2 h.2⟩
  | lam x a b iha ihb =>
    intro s d hg h
    cases s <;> simp [Term.openAt, Term.aeq] at h
    simp [Term.genLtB] at hg
    simp [Term.closeAt, Term.aeq]
    exact ⟨iha _ _ hg.1 h.1, ihb _ _ hg.2 h.2⟩
  | app f a ihf iha =>
    intro s d hg h
    cases s <;> simp [Term.openAt, Term.aeq] at h
    simp [Term.genLtB] at hg
    simp [Term.closeAt, Term.aeq]
    exact ⟨ihf _ _ hg.1 h.1, iha _ _ hg.2 h.2⟩

theorem aeq_open_close_neutral {gf : Nat} :
    ∀ (n m : Neutral) (d : Nat), n.genLtB gf = true →
      (n.openAt d (Name.gen gf)).aeq m = true →
      n.aeq (m.closeAt d (Name.gen gf)) = true := by
  intro n
  induction n with
  | var v =>
    intro m d hg h
    match v with
    | .free y =>
      simp only [Neutral.openAt] at h
      cases m <;> simp [Neutral.aeq] at h
      case var v' =>
        cases v' <;> simp [Var.aeq] at h
        subst h
        have hy : (y = Name.gen gf) = False := by
          simp only [eq_iff_iff, iff_false]
          intro he
          subst he
          simp [Neutral.genLtB, Name.genLtB] at hg
        simp [Neutral.closeAt, hy, Neutral.aeq, Var.aeq]
    | .bound hh i =>
      simp only [Neutral.openAt] at h
      by_cases hi : i = d
      · rw [if_pos hi] at h
        cases m <;> simp [Neutral.aeq] at h
        rename_i v'
        cases v' <;> simp [Var.aeq] at h
        subst h
        simp [Neutral.closeAt, Neutral.aeq, Var.aeq, hi]
      · rw [if_neg hi] at h
        cases m <;> simp [Neutral.aeq] at h
        rename_i v'
        cases v' <;> simp [Var.aeq] at h
        simp [Neutral.closeAt, Neutral.aeq, Var.aeq, h]
  | app n arg ih =>
    intro m d hg h
    cases m <;> simp [Neutral.openAt, Neutral.aeq] at h
    simp [Neutral.genLtB] at hg
    simp [Neutral.closeAt, Neutral.aeq]
    exact ⟨ih _ _ hg.1 h.1, aeq_open_close_term _ _ _ hg.2 h.2⟩

theorem aeq_open_close_value {gf : Nat} :
    ∀ (v w : Value) (d : Nat), v.genLtB gf = true →
      (v.openAt d (Name.gen gf)).aeq w = true →
      v.aeq (w.closeAt d (Name.gen gf)) = true := by
  intro v
  induction v with
  | «universe» l =>
    intro w d hg h
    cases w <;> simp [Value.openAt, Value.aeq] at h
    simp [Value.closeAt, Value.aeq, h]
  | const c =>
    intro w d hg h
    cases w <;> simp [Value.openAt, Value.aeq] at h
    simp [Value.closeAt, Value.aeq, h]
  | pi x a b iha ihb =>
    intro w d hg h
    cases w <;> simp [Value.openAt, Value.aeq] at h
    simp [Value.genLtB] at hg
    simp [Value.closeAt, Value.aeq]
    exact ⟨iha _ _ hg.1 h.1, ihb _ _ hg.2 h.2⟩
  | lam x a b iha ihb =>
    intro w d hg h
    cases w <;> simp [Value.openAt, Value.aeq] at h
    simp [Value.genLtB] at hg
    simp [Value.closeAt, Value.aeq]
    exact ⟨iha _ _ hg.1 h.1, ihb _ _ hg.2 h.2⟩
  | neutral n =>
    intro w d hg h
    cases w <;> simp [Value.openAt, Value.aeq] at h
    simp [Value.closeAt, Value.aeq]
    exact aeq_open_close_neutral _ _ _ hg h

/-- Closing over the newest binder turns a value that is good in the
extended context into a value good in the base context, with a valid slot
inserted at the closing depth. -/
theorem goodN_closeAt (B : Binder) (ctx : Context) :
    ∀ (n : Neutral) (V : Nat → Bool) (d : Nat),
      (∀ i, d ≤ i → V i = false) →
      Neutral.goodN (B :: ctx) V n = true →
      Neutral.goodN ctx (insertAt d V) (n.closeAt d B.name) = true := by
  intro n
  induction n with
  | var v =>
    intro V d hV h
    match v with
    | .free y =>
      simp only [Neutral.closeAt]
      by_cases hy : y = B.name
      · rw [if_pos hy]
        simp [Neutral.goodN, insertAt]
      · rw [if_neg hy]
        simp only [Neutral.goodN] at h ⊢
        rwa [lookupBinder_cons_ne B ctx y (fun he => hy he.symm)] at h
    | .bound hh i =>
      simp only [Neutral.goodN] at h
      have hid : i < d := by
        by_contra hc
        rw [hV i (by omega)] at h
        exact Bool.false_ne_true h
      simp [Neutral.closeAt, Neutral.goodN, insertAt, hid, h]
  | app n arg ih =>
    intro V d hV h
    simp only [Neutral.goodN, Neutral.closeAt] at h ⊢
    exact ih V d hV h

theorem goodV_closeAt (B : Binder) (ctx : Context) :
    ∀ (v : Value) (V : Nat → Bool) (d : Nat),
      (∀ i, d ≤ i → V i = false) →
      Value.goodV (B :: ctx) V v = true →
      Value.goodV ctx (insertAt d V) (v.closeAt d B.name) = true := by
  intro v
  induction v with
  | «universe» l => intro V d hV h; rfl
  | const c => intro V d hV h; rfl
  | pi x a b iha ihb =>
    intro V d hV h
    simp only [Value.goodV, Bool.and_eq_true] at h
    simp only [Value.closeAt, Value.goodV, Bool.and_eq_true,
      extVacant_insertAt, extValid_insertAt]
    constructor
    · exact iha (extVacant V) (d + 1)
        (fun i hi => by
          match i, hi with
          | j + 1, hj => simp only [extVacant]; exact hV j (by omega)) h.1
    · exact ihb (extValid V) (d + 1)
        (fun i hi => by
          match i, hi with
          | j + 1, hj => simp only [extValid]; exact hV j (by omega)) h.2
  | lam x a b iha ihb =>
    intro V d hV h
    simp only [Value.goodV, Bool.and_eq_true] at h
    simp only [Value.closeAt, Value.goodV, Bool.and_eq_true,
      extVacant_insertAt, extValid_insertAt]
    constructor
    · exact iha (extVacant V) (d + 1)
        (fun i hi => by
          match i, hi with
          | j + 1, hj => simp only [extVacant]; exact hV j (by omega)) h.1
    · exact ihb (extValid V) (d + 1)
        (fun i hi => by
          match i, hi with
          | j + 1, hj => simp only [extValid]; exact hV j (by omega)) h.2
  | neutral n =>
    intro V d hV h
    exact goodN_closeAt B ctx n V d hV h

/-- Opening with the name of a lambda or Pi binder pushed on the context
consumes the inserted valid slot. -/
theorem goodN_openAt (B : Binder) (ctx : Context)
    (hB : isLamPiBinder (some B) = true) :
    ∀ (n : Neutral) (V : Nat → Bool) (d : Nat),
      (∀ i, d ≤ i → V i = false) →
      Neutral.goodN ctx (insertAt d V) n = true →
      Neutral.goodN (B :: ctx) V (n.openAt d B.name) = true := by
  intro n
  induction n with
  | var v =>
    intro V d hV h
    match v with
    | .free y =>
      simp only [Neutral.openAt, Neutral.goodN] at h ⊢
      by_cases hy : B.name = y
      · subst hy
        rw [lookupBinder_cons_self]
        exact hB
      · rwa [lookupBinder_cons_ne B ctx y hy]
    | .bound hh i =>
      simp only [Neutral.goodN, insertAt] at h
      simp only [Neutral.openAt]
      by_cases hi : i = d
      · rw [if_pos hi]
        simp only [Neutral.goodN]
        rw [lookupBinder_cons_self]
        exact hB
      · rw [if_neg hi]
        simp only [Neutral.goodN]
        rcases Nat.lt_trichotomy i d with hc | hc | hc
        · rw [if_pos hc] at h
          exact h
        · exact absurd hc hi
        · rw [if_neg (by omega), if_neg hi] at h
          rw [hV (i - 1) (by omega)] at h
          exact absurd h Bool.false_ne_true
  | app n arg ih =>
    intro V d hV h
    simp only [Neutral.goodN, Neutral.openAt] at h ⊢
    exact ih V d hV h

theorem goodV_openAt (B : Binder) (ctx : Context)
    (hB : isLamPiBinder (some B) = true) :
    ∀ (v : Value) (V : Nat → Bool) (d : Nat),
      (∀ i, d ≤ i → V i = false) →
      Value.goodV ctx (insertAt d V) v = true →
      Value.goodV (B :: ctx) V (v.openAt d B.name) = true := by
  intro v
  induction v with
  | «universe» l => intro V d hV h; rfl
  | const c => intro V d hV h; rfl
  | pi x a b iha ihb =>
    intro V d hV h
    simp only [Value.goodV, Bool.and_eq_true, extVacant_insertAt, extValid_insertAt] at h
    simp only [Value.openAt, Value.goodV, Bool.and_eq_true]
    constructor
    · exact iha (extVacant V) (d + 1)
        (fun i hi => by
          match i, hi with
          | j + 1, hj => simp only [extVacant]; exact hV j (by omega)) h.1
    · exact ihb (extValid V) (d + 1)
        (fun i hi => by
          match i, hi with
          | j + 1, hj => simp only [extValid]; exact hV j (by omega)) h.2
  | lam x a b iha ihb =>
    intro V d hV h
    simp only [Value.goodV, Bool.and_eq_true, extVacant_insertAt, extValid_insertAt] at h
    simp only [Value.openAt, Value.goodV, Bool.and_eq_true]
    constructor
    · exact iha (extVacant V) (d + 1)
        (fun i hi => by
          match i, hi with
          | j + 1, hj => simp only [extVacant]; exact hV j (by omega)) h.1
    · exact ihb (extValid V) (d + 1)
        (fun i hi => by
          match i, hi with
          | j + 1, hj => simp only [extValid]; exact hV j (by omega)) h.2
  | neutral n =>
    intro V d hV h
    exact goodN_openAt B ctx hB n V d hV h

/-- A let binding on top of the context can be stripped from a goodness
assumption: let-bound names never head a good neutral. -/
theorem goodN_stripLet (f : Name) (a : Value) (t : Term) (ctx : Context) :
    ∀ (n : Neutral) (V : Nat → Bool),
      Neutral.goodN (Binder.letB f a t :: ctx) V n = true →
      Neutral.goodN ctx V n = true := by
  intro n
  induction n with
  | var v =>
    intro V h
    match v with
    | .free y =>
      simp only [Neutral.goodN] at h ⊢
      by_cases hy : f = y
      · subst hy
        have hself := lookupBinder_cons_self (Binder.letB f a t) ctx
        simp only [Binder.name] at hself
        rw [hself] at h
        simp [isLamPiBinder] at h
      · rwa [lookupBinder_cons_ne (Binder.letB f a t) ctx y hy] at h
    | .bound hh i => exact h
  | app n arg ih =>
    intro V h
    simp only [Neutral.goodN] at h ⊢
    exact ih V h

theorem goodV_stripLet (f : Name) (a : Value) (t : Term) (ctx : Context) :
    ∀ (v : Value) (V : Nat → Bool),
      Value.goodV (Binder.letB f a t :: ctx) V v = true →
      Value.goodV ctx V v = true := by
  intro v
  induction v with
  | «universe» l => intro V h; rfl
  | const c => intro V h; rfl
  | pi x a1 b iha ihb =>
    intro V h
    simp only [Value.goodV, Bool.and_eq_true] at h ⊢
    exact ⟨iha _ h.1, ihb _ h.2⟩
  | lam x a1 b iha ihb =>
    intro V h
    simp only [Value.goodV, Bool.and_eq_true] at h ⊢
    exact ⟨iha _ h.1, ihb _ h.2⟩
  | neutral n =>
    intro V h
    exact goodN_stripLet f a t ctx n V h

/-- Destructor for the result plumbing. -/
theorem nbind_eq_some {ε α β : Type} {x : Option (Except ε (α × Nat))}
    {k : α → Nat → Option (Except ε (β × Nat))} {r : Except ε (β × Nat)}
    (h : nbind x k = some r) :
    (∃ e, x = some (.error e) ∧ r = .error e) ∨
    (∃ a g1, x = some (.ok (a, g1)) ∧ k a g1 = some r) := by
  match x with
  | none => simp [nbind] at h
  | some (.error e) =>
    simp [nbind] at h
    exact Or.inl ⟨e, rfl, h.symm⟩
  | some (.ok (a, g1)) =>
    exact Or.inr ⟨a, g1, rfl, h⟩

theorem nbind_error {ε α β : Type} {e : ε}
    (k : α → Nat → Option (Except ε (β × Nat))) :
    nbind (some (.error e)) k = some (.error e) := rfl

theorem nbind_ok {ε α β : Type} {a : α} {g1 : Nat}
    (k : α → Nat → Option (Except ε (β × Nat))) :
    nbind (some (.ok (a, g1))) k = k a g1 := rfl

/-- One-step unfolding equations for `normalize` with symbolic fuel. -/
theorem normalize_pi_eq (fuel : Nat) (ctx : Context) (x : Name) (dom body : Term) (g : Nat) :
    Pikelet.normalize (fuel + 1) ctx (.pi x dom body) g =
      nbind (Pikelet.normalize fuel ctx dom (g + 1)) (fun vDom g1 =>
        nbind (Pikelet.normalize fuel (ctx.extendPi (Name.gen g) vDom)
            (body.openAt 0 (Name.gen g)) g1) (fun vBody g2 =>
          some (.ok (.pi (Name.gen g) vDom (vBody.closeAt 0 (Name.gen g)), g2)))) := rfl

theorem normalize_lam_eq (fuel : Nat) (ctx : Context) (x : Name) (a body : Term) (g : Nat) :
    Pikelet.normalize (fuel + 1) ctx (.lam x a body) g =
      nbind (Pikelet.normalize fuel ctx a (g + 1)) (fun vAnn g1 =>
        nbind (Pikelet.normalize fuel (ctx.extendLam (Name.gen g) vAnn)
            (body.openAt 0 (Name.gen g)) g1) (fun vBody g2 =>
          some (.ok (.lam (Name.gen g) vAnn (vBody.closeAt 0 (Name.gen g)), g2)))) := rfl

theorem normalize_app_eq (fuel : Nat) (ctx : Context) (fn arg : Term) (g : Nat) :
    Pikelet.normalize (fuel + 1) ctx (.app fn arg) g =
      nbind (Pikelet.normalize fuel ctx fn g) (fun vFn g1 =>
        match vFn with
        | .lam _x a body =>
          Pikelet.normalize fuel (ctx.extendLet (Name.gen g1) a arg)
            (Term.fromValue (body.openAt 0 (Name.gen g1))) (g1 + 1)
        | .neutral n => some (.ok (.neutral (.app n arg), g1))
        | _ => some (.error .argumentAppliedToNonFunction)) := rfl

/-- More fuel never changes a result that was already delivered. -/
theorem normalize_mono_succ :
    ∀ (fuel : Nat) (ctx : Context) (t : Term) (g : Nat) (r : Except InternalError (Value × Nat)),
      Pikelet.normalize fuel ctx t g = some r →
      Pikelet.normalize (fuel + 1) ctx t g = some r := by
  intro fuel
  induction fuel with
  | zero => intro ctx t g r h; simp [Pikelet.normalize] at h
  | succ n ih =>
    intro ctx t g r h
    match t with
    | .ann e T =>
      simp only [Pikelet.normalize] at h ⊢
      exact ih ctx e g r h
    | .universe l => exact h
    | .const c => exact h
    | .var (.free x) =>
      simp only [Pikelet.normalize] at h ⊢
      match hl : Context.lookupBinder ctx x with
      | some (.lam nm ann) => rw [hl] at h; exact h
      | some (.pi nm ann) => rw [hl] at h; exact h
      | some (.letB nm ann v) =>
        rw [hl] at h
        exact ih ctx v g r h
      | none => rw [hl] at h; exact h
    | .var (.bound hh i) => exact h
    | .pi x dom body =>
      simp only [Pikelet.normalize] at h
      rw [normalize_pi_eq]
      rcases nbind_eq_some h with ⟨e, hx, hr⟩ | ⟨a, g1, hx, hk⟩
      · rw [ih _ _ _ _ hx, nbind_error]
        rw [hr]
      · rw [ih _ _ _ _ hx, nbind_ok]
        rcases nbind_eq_some hk with ⟨e2, hx2, hr2⟩ | ⟨a2, g2, hx2, hk2⟩
        · rw [ih _ _ _ _ hx2, nbind_error]
          rw [hr2]
        · rw [ih _ _ _ _ hx2, nbind_ok]
          exact hk2
    | .lam x a body =>
      simp only [Pikelet.normalize] at h
      rw [normalize_lam_eq]
      rcases nbind_eq_some h with ⟨e, hx, hr⟩ | ⟨a1, g1, hx, hk⟩
      · rw [ih _ _ _ _ hx, nbind_error]
        rw [hr]
      · rw [ih _ _ _ _ hx, nbind_ok]
        rcases nbind_eq_some hk with ⟨e2, hx2, hr2⟩ | ⟨a2, g2, hx2, hk2⟩
        · rw [ih _ _ _ _ hx2, nbind_error]
          rw [hr2]
        · rw [ih _ _ _ _ hx2, nbind_ok]
          exact hk2
    | .app fn arg =>
      simp only [Pikelet.normalize] at h
      rw [normalize_app_eq]
      rcases nbind_eq_some h with ⟨e, hx, hr⟩ | ⟨a1, g1, hx, hk⟩
      · rw [ih _ _ _ _ hx, nbind_error]
        rw [hr]
      · rw [ih _ _ _ _ hx, nbind_ok]
        match a1 with
        | .lam y va body => exact ih _ _ _ _ hk
        | .neutral ne => exact hk
        | .universe l => exact hk
        | .const c => exact hk
        | .pi y va body => exact hk

theorem normalize_mono :
    ∀ {fuel fuel' : Nat}, fuel ≤ fuel' →
      ∀ {ctx : Context} {t : Term} {g : Nat} {r : Except InternalError (Value × Nat)},
      Pikelet.normalize fuel ctx t g = some r →
      Pikelet.normalize fuel' ctx t g = some r := by
  intro fuel fuel' hle
  induction hle with
  | refl => intro ctx t g r h; exact h
  | step h2 ih =>
    intro ctx t g r h
    exact normalize_mono_succ _ _ _ _ _ (ih h)

theorem vsize_pos (v : Value) : 0 < v.vsize := by
  cases v <;> simp [Value.vsize, Neutral.nsize]

/-- A good neutral re-normalizes to itself, consuming no fresh names. -/
theorem normalize_fromNeutral (ctx : Context) :
    ∀ (n : Neutral) (g : Nat), Neutral.goodN ctx noIdx n = true →
      Pikelet.normalize n.nsize ctx (Term.fromNeutral n) g =
        some (.ok (.neutral n, g)) := by
  intro n
  induction n with
  | var v =>
    intro g h
    match v with
    | .free x =>
      simp only [Neutral.goodN] at h
      simp only [Neutral.nsize, Term.fromNeutral, Pikelet.normalize]
      match hl : Context.lookupBinder ctx x with
      | some (.lam nm ann) => rfl
      | some (.pi nm ann) => rfl
      | some (.letB nm ann t) => rw [hl] at h; simp [isLamPiBinder] at h
      | none => rw [hl] at h; simp [isLamPiBinder] at h
    | .bound hh i =>
      simp only [Neutral.goodN, noIdx] at h
      exact absurd h Bool.false_ne_true
  | app n arg ih =>
    intro g h
    simp only [Neutral.goodN] at h
    simp only [Neutral.nsize, Term.fromNeutral]
    rw [normalize_app_eq, ih g h, nbind_ok]

/-- Soundness of `normalize`: every value it returns is good in the context
of the call. -/
theorem normalize_good :
    ∀ (fuel : Nat) (ctx : Context) (t : Term) (g : Nat) (v : Value) (g1 : Nat),
      Pikelet.normalize fuel ctx t g = some (.ok (v, g1)) →
      Value.goodV ctx noIdx v = true := by
  intro fuel
  induction fuel with
  | zero => intro ctx t g v g1 h; simp [Pikelet.normalize] at h
  | succ n ih =>
    intro ctx t g v g1 h
    match t with
    | .ann e T =>
      simp only [Pikelet.normalize] at h
      exact ih ctx e g v g1 h
    | .universe l =>
      simp only [Pikelet.normalize, Option.some.injEq, Except.ok.injEq,
        Prod.mk.injEq] at h
      rw [← h.1]
      rfl
    | .const c =>
      simp only [Pikelet.normalize, Option.some.injEq, Except.ok.injEq,
        Prod.mk.injEq] at h
      rw [← h.1]
      rfl
    | .var (.free x) =>
      simp only [Pikelet.normalize] at h
      match hl : Context.lookupBinder ctx x with
      | some (.lam nm ann) =>
        rw [hl] at h
        simp only [Option.some.injEq, Except.ok.injEq, Prod.mk.injEq] at h
        rw [← h.1]
        simp [Value.goodV, Neutral.goodN, hl, isLamPiBinder]
      | some (.pi nm ann) =>
        rw [hl] at h
        simp only [Option.some.injEq, Except.ok.injEq, Prod.mk.injEq] at h
        rw [← h.1]
        simp [Value.goodV, Neutral.goodN, hl, isLamPiBinder]
      | some (.letB nm ann vt) =>
        rw [hl] at h
        exact ih ctx vt g v g1 h
      | none => rw [hl] at h; simp at h
    | .var (.bound hh i) =>
      simp only [Pikelet.normalize] at h
      simp at h
    | .pi x dom body =>
      simp only [Pikelet.normalize] at h
      rcases nbind_eq_some h with ⟨e, hx, hr⟩ | ⟨vDom, ga, hx, hk⟩
      · simp at hr
      · rcases nbind_eq_some hk with ⟨e2, hx2, hr2⟩ | ⟨vBody, gb, hx2, hk2⟩
        · simp at hr2
        · simp only [Option.some.injEq, Except.ok.injEq, Prod.mk.injEq] at hk2
          rw [← hk2.1]
          have hdom := ih _ _ _ _ _ hx
          have hbody := ih _ _ _ _ _ hx2
          have hclose := goodV_closeAt (Binder.pi (Name.gen g) vDom) ctx
            vBody noIdx 0 (fun i _ => rfl) hbody
          simp only [Binder.name] at hclose
          simp only [Value.goodV, Bool.and_eq_true]
          rw [extVacant_noIdx, ← insertAt_zero_noIdx]
          exact ⟨hdom, hclose⟩
    | .lam x a body =>
      simp only [Pikelet.normalize] at h
      rcases nbind_eq_some h with ⟨e, hx, hr⟩ | ⟨vAnn, ga, hx, hk⟩
      · simp at hr
      · rcases nbind_eq_some hk with ⟨e2, hx2, hr2⟩ | ⟨vBody, gb, hx2, hk2⟩
        · simp at hr2
        · simp only [Option.some.injEq, Except.ok.injEq, Prod.mk.injEq] at hk2
          rw [← hk2.1]
          have hann := ih _ _ _ _ _ hx
          have hbody := ih _ _ _ _ _ hx2
          have hclose := goodV_closeAt (Binder.lam (Name.gen g) vAnn) ctx
            vBody noIdx 0 (fun i _ => rfl) hbody
          simp only [Binder.name] at hclose
          simp only [Value.goodV, Bool.and_eq_true]
          rw [extVacant_noIdx, ← insertAt_zero_noIdx]
          exact ⟨hann, hclose⟩
    | .app fn arg =>
      simp only [Pikelet.normalize] at h
      rcases nbind_eq_some h with ⟨e, hx, hr⟩ | ⟨vFn, ga, hx, hk⟩
      · simp at hr
      · match vFn with
        | .lam y va body =>
          have hres := ih _ _ _ _ _ hk
          exact goodV_stripLet (Name.gen ga) va arg ctx v noIdx hres
        | .neutral ne =>
          simp only [Option.some.injEq, Except.ok.injEq, Prod.mk.injEq] at hk
          rw [← hk.1]
          have hfn := ih _ _ _ _ _ hx
          simp only [Value.goodV, Neutral.goodN] at hfn ⊢
          exact hfn
        | .universe l => simp at hk
        | .const c => simp at hk
        | .pi y va body => simp at hk

/-- Stability: a good value, embedded back as a term and normalized with a
sufficiently fresh name counter, re-normalizes to an alpha-equivalent
value. -/
theorem fromValue_stable :
    ∀ (N : Nat) (v : Value) (ctx : Context) (g : Nat),
      v.vsize ≤ N →
      Value.goodV ctx noIdx v = true →
      v.genLtB g = true →
      ∃ fuel v2 g2,
        Pikelet.normalize fuel ctx (Term.fromValue v) g = some (.ok (v2, g2)) ∧
        v.aeq v2 = true ∧ g ≤ g2 ∧ v2.genLtB g2 = true := by
  intro N
  induction N with
  | zero =>
    intro v ctx g hs hgood hg
    exact absurd (Nat.lt_of_lt_of_le (vsize_pos v) hs) (Nat.lt_irrefl 0)
  | succ N ih =>
    intro v ctx g hs hgood hg
    match v with
    | .universe l =>
      exact ⟨1, .universe l, g, rfl, by simp [Value.aeq], Nat.le_refl g, rfl⟩
    | .const c =>
      exact ⟨1, .const c, g, rfl, by simp [Value.aeq], Nat.le_refl g, rfl⟩
    | .neutral n =>
      exact ⟨n.nsize, .neutral n, g, normalize_fromNeutral ctx n g hgood,
        aeq_refl_value _, Nat.le_refl g, hg⟩
    | .lam x a b =>
      simp only [Value.goodV, Bool.and_eq_true, extVacant_noIdx] at hgood
      simp only [Value.genLtB, Bool.and_eq_true] at hg
      simp only [Value.vsize] at hs
      have hsa : a.vsize ≤ N := by
        have := vsize_pos b
        omega
      have hsb : b.vsize ≤ N := by
        have := vsize_pos a
        omega
      obtain ⟨fuelA, vA2, gA, hA, haeqA, hleA, hgA⟩ :=
        ih a ctx (g + 1) hsa hgood.1 (genLtB_mono_value (Nat.le_succ g) hg.1)
      have hgoodb : Value.goodV (Binder.lam (Name.gen g) vA2 :: ctx) noIdx
          (b.openAt 0 (Name.gen g)) = true := by
        have := goodV_openAt (Binder.lam (Name.gen g) vA2) ctx rfl
          b noIdx 0 (fun i _ => rfl)
        simp only [Binder.name] at this
        exact this (by rw [insertAt_zero_noIdx]; exact hgood.2)
      have hgb : (b.openAt 0 (Name.gen g)).genLtB gA = true :=
        genLtB_mono_value hleA (genLtB_openAt_value g 0 b hg.2)
      obtain ⟨fuelB, vB2, gB, hB, haeqB, hleB, hgB⟩ :=
        ih (b.openAt 0 (Name.gen g)) (Binder.lam (Name.gen g) vA2 :: ctx) gA
          (by rw [vsize_openAt]; exact hsb) hgoodb hgb
      refine ⟨max fuelA fuelB + 1, .lam (Name.gen g) vA2 (vB2.closeAt 0 (Name.gen g)),
        gB, ?_, ?_, ?_, ?_⟩
      · have hA' : Pikelet.normalize (max fuelA fuelB) ctx (Term.fromValue a) (g + 1) =
            some (.ok (vA2, gA)) := normalize_mono (Nat.le_max_left _ _) hA
        have hB' : Pikelet.normalize (max fuelA fuelB)
            (Binder.lam (Name.gen g) vA2 :: ctx)
            (Term.fromValue (b.openAt 0 (Name.gen g))) gA =
            some (.ok (vB2, gB)) := normalize_mono (Nat.le_max_right _ _) hB
        show Pikelet.normalize (max fuelA fuelB + 1) ctx
          (.lam x (Term.fromValue a) (Term.fromValue b)) g = _
        rw [normalize_lam_eq, hA', nbind_ok]
        show nbind (Pikelet.normalize (max fuelA fuelB) (Context.extendLam ctx (Name.gen g) vA2)
          ((Term.fromValue b).openAt 0 (Name.gen g)) gA) _ = _
        rw [fromValue_openAt]
        show nbind (Pikelet.normalize (max fuelA fuelB)
          (Binder.lam (Name.gen g) vA2 :: ctx)
          (Term.fromValue (b.openAt 0 (Name.gen g))) gA) _ = _
        rw [hB', nbind_ok]
      · simp only [Value.aeq, Bool.and_eq_true]
        exact ⟨haeqA, aeq_open_close_value b vB2 0 hg.2 haeqB⟩
      · omega
      · simp only [Value.genLtB, Bool.and_eq_true]
        exact ⟨genLtB_mono_value hleB hgA, genLtB_closeAt_value gB 0 (Name.gen g) vB2 hgB⟩
    | .pi x a b =>
      simp only [Value.goodV, Bool.and_eq_true, extVacant_noIdx] at hgood
      simp only [Value.genLtB, Bool.and_eq_true] at hg
      simp only [Value.vsize] at hs
      have hsa : a.vsize ≤ N := by
        have := vsize_pos b
        omega
      have hsb : b.vsize ≤ N := by
        have := vsize_pos a
        omega
      obtain ⟨fuelA, vA2, gA, hA, haeqA, hleA, hgA⟩ :=
        ih a ctx (g + 1) hsa hgood.1 (genLtB_mono_value (Nat.le_succ g) hg.1)
      have hgoodb : Value.goodV (Binder.pi (Name.gen g) vA2 :: ctx) noIdx
          (b.openAt 0 (Name.gen g)) = true := by
        have := goodV_openAt (Binder.pi (Name.gen g) vA2) ctx rfl
          b noIdx 0 (fun i _ => rfl)
        simp only [Binder.name] at this
        exact this (by rw [insertAt_zero_noIdx]; exact hgood.2)
      have hgb : (b.openAt 0 (Name.gen g)).genLtB gA = true :=
        genLtB_mono_value hleA (genLtB_openAt_value g 0 b hg.2)
      obtain ⟨fuelB, vB2, gB, hB, haeqB, hleB, hgB⟩ :=
        ih (b.openAt 0 (Name.gen g)) (Binder.pi (Name.gen g) vA2 :: ctx) gA
          (by rw [vsize_openAt]; exact hsb) hgoodb hgb
      refine ⟨max fuelA fuelB + 1, .pi (Name.gen g) vA2 (vB2.closeAt 0 (Name.gen g)),
        gB, ?_, ?_, ?_, ?_⟩
      · have hA' : Pikelet.normalize (max fuelA fuelB) ctx (Term.fromValue a) (g + 1) =
            some (.ok (vA2, gA)) := normalize_mono (Nat.le_max_left _ _) hA
        have hB' : Pikelet.normalize (max fuelA fuelB)
            (Binder.pi (Name.gen g) vA2 :: ctx)
            (Term.fromValue (b.openAt 0 (Name.gen g))) gA =
            some (.ok (vB2, gB)) := normalize_mono (Nat.le_max_right _ _) hB
        show Pikelet.normalize (max fuelA fuelB + 1) ctx
          (.pi x (Term.fromValue a) (Term.fromValue b)) g = _
        rw [normalize_pi_eq, hA', nbind_ok]
        show nbind (Pikelet.normalize (max fuelA fuelB) (Context.extendPi ctx (Name.gen g) vA2)
          ((Term.fromValue b).openAt 0 (Name.gen g)) gA) _ = _
        rw [fromValue_openAt]
        show nbind (Pikelet.normalize (max fuelA fuelB)
          (Binder.pi (Name.gen g) vA2 :: ctx)
          (Term.fromValue (b.openAt 0 (Name.gen g))) gA) _ = _
        rw [hB', nbind_ok]
      · simp only [Value.aeq, Bool.and_eq_true]
        exact ⟨haeqA, aeq_open_close_value b vB2 0 hg.2 haeqB⟩
      · omega
      · simp only [Value.genLtB, Bool.and_eq_true]
        exact ⟨genLtB_mono_value hleB hgA, genLtB_closeAt_value gB 0 (Name.gen g) vB2 hgB⟩

/-- C8: `normalize` is idempotent up to alpha-equivalence: whenever
`normalize` succeeds on a core term under a context, embedding the resulting
value back as a term and normalizing it again under the same context - with
any sufficiently fresh name-counter state, as the global counter guarantees -
succeeds and yields an alpha-equivalent value. -/
theorem c8_normalize_idempotent :
    ∀ (fuel : Nat) (ctx : Context) (t : Term) (g g1 g2 : Nat) (v : Value),
      Pikelet.normalize fuel ctx t g = some (.ok (v, g1)) →
      Value.genLtB g2 v = true →
      ∃ fuel2 v2 g3,
        Pikelet.normalize fuel2 ctx (Term.fromValue v) g2 = some (.ok (v2, g3)) ∧
        Value.aeq v v2 = true := by
  intro fuel ctx t g g1 g2 v h hg
  have hgood := normalize_good fuel ctx t g v g1 h
  obtain ⟨fuel2, v2, g3, hn, ha, _, _⟩ :=
    fromValue_stable v.vsize v ctx g2 (Nat.le_refl _) hgood hg
  exact ⟨fuel2, v2, g3, hn, ha⟩

/-- C8 witness: the identity lambda normalizes, and its value re-normalizes
to an alpha-equivalent value from a fresh counter. -/
theorem c8_witness :
    Pikelet.normalize 3 [] (.lam (.user "x") (.universe 0) (.var (.bound (.user "x") 0))) 0 =
      some (.ok (.lam (.gen 0) (.universe 0) (.neutral (.var (.bound (.gen 0) 0))), 1)) ∧
    Value.genLtB 5 (.lam (.gen 0) (.universe 0) (.neutral (.var (.bound (.gen 0) 0)))) = true ∧
    ∃ fuel2 v2 g3,
      Pikelet.normalize fuel2 []
          (Term.fromValue (.lam (.gen 0) (.universe 0) (.neutral (.var (.bound (.gen 0) 0))))) 5 =
        some (.ok (v2, g3)) ∧
      Value.aeq (.lam (.gen 0) (.universe 0) (.neutral (.var (.bound (.gen 0) 0)))) v2 = true := by
  refine ⟨rfl, rfl, ?_⟩
  exact c8_normalize_idempotent 3 []
    (.lam (.user "x") (.universe 0) (.var (.bound (.user "x") 0))) 0 1 5
    (.lam (.gen 0) (.universe 0) (.neutral (.var (.bound (.gen 0) 0)))) rfl rfl

end Pikelet
